import Mathlib

/-!
Verification of the RLNC (random linear network coding) codec core.

The development shallowly embeds the Rust sources:
  * `src/primitives/galois.rs` — the GF(2^8) backend with hard-coded log/exp tables;
  * `src/primitives/packet.rs`, `crates/rlnc/src/primitives/packet.rs` — coded packets
    with `leading_coefficient`, `normalize`, `subtract_row`;
  * `src/matrix.rs` (and the generic `crates/rlnc` decoder wrapping it) — the online
    RREF Gaussian-elimination engine `push_rref` / `eliminate` / `back_substitute`
    and the final extraction `decode`;
  * `src/encode.rs` — the encoder construction (boundary marker, padding, chunking)
    and the sequential / parallel linear-combination kernels;
  * `src/decode.rs` — the self-contained GF(2^8) decoder with its fixed 256-entry
    pivot table.

Machine integers are modelled as `Nat` / `Fin`; fallible operations return
`Option` / `Except`.  The generic decoder is stated over an arbitrary `Field F`
with decidable equality, mirroring the `F: Field` trait bound of the Rust code.
-/

set_option maxHeartbeats 4000000
set_option maxRecDepth 10000
set_option linter.unusedSectionVars false

namespace RLNC

/-! ## GF(2^8) backend (`src/primitives/galois.rs`)

Elements are single bytes, modelled as `Fin 256`.  The tables below are the
`GF256_LOG_TABLE` and `GF256_EXP_TABLE` constants copied from the source. -/

/-- Logarithm lookup table for GF(2^8); `GF256_LOG_TABLE` from `galois.rs`. -/
def GF256_LOG_TABLE : List (Fin 256) := [
  0, 0, 1, 25, 2, 50, 26, 198, 3, 223, 51, 238, 27, 104, 199, 75, 4, 100, 224, 14, 52, 141, 239,
  129, 28, 193, 105, 248, 200, 8, 76, 113, 5, 138, 101, 47, 225, 36, 15, 33, 53, 147, 142, 218,
  240, 18, 130, 69, 29, 181, 194, 125, 106, 39, 249, 185, 201, 154, 9, 120, 77, 228, 114, 166, 6,
  191, 139, 98, 102, 221, 48, 253, 226, 152, 37, 179, 16, 145, 34, 136, 54, 208, 148, 206, 143,
  150, 219, 189, 241, 210, 19, 92, 131, 56, 70, 64, 30, 66, 182, 163, 195, 72, 126, 110, 107, 58,
  40, 84, 250, 133, 186, 61, 202, 94, 155, 159, 10, 21, 121, 43, 78, 212, 229, 172, 115, 243,
  167, 87, 7, 112, 192, 247, 140, 128, 99, 13, 103, 74, 222, 237, 49, 197, 254, 24, 227, 165,
  153, 119, 38, 184, 180, 124, 17, 68, 146, 217, 35, 32, 137, 46, 55, 63, 209, 91, 149, 188, 207,
  205, 144, 135, 151, 178, 220, 252, 190, 97, 242, 86, 211, 171, 20, 42, 93, 158, 132, 60, 57,
  83, 71, 109, 65, 162, 31, 45, 67, 216, 183, 123, 164, 118, 196, 23, 73, 236, 127, 12, 111, 246,
  108, 161, 59, 82, 41, 157, 85, 170, 251, 96, 134, 177, 187, 204, 62, 90, 203, 89, 95, 176, 156,
  169, 160, 81, 11, 245, 22, 235, 122, 117, 44, 215, 79, 174, 213, 233, 230, 231, 173, 232, 116,
  214, 244, 234, 168, 80, 88, 175]

/-- Exponentiation lookup table for GF(2^8); `GF256_EXP_TABLE` from `galois.rs`
(two full cycles of powers of the primitive element 2, 510 entries). -/
def GF256_EXP_TABLE : List (Fin 256) := [
  1, 2, 4, 8, 16, 32, 64, 128, 29, 58, 116, 232, 205, 135, 19, 38, 76, 152, 45, 90, 180, 117,
  234, 201, 143, 3, 6, 12, 24, 48, 96, 192, 157, 39, 78, 156, 37, 74, 148, 53, 106, 212, 181,
  119, 238, 193, 159, 35, 70, 140, 5, 10, 20, 40, 80, 160, 93, 186, 105, 210, 185, 111, 222, 161,
  95, 190, 97, 194, 153, 47, 94, 188, 101, 202, 137, 15, 30, 60, 120, 240, 253, 231, 211, 187,
  107, 214, 177, 127, 254, 225, 223, 163, 91, 182, 113, 226, 217, 175, 67, 134, 17, 34, 68, 136,
  13, 26, 52, 104, 208, 189, 103, 206, 129, 31, 62, 124, 248, 237, 199, 147, 59, 118, 236, 197,
  151, 51, 102, 204, 133, 23, 46, 92, 184, 109, 218, 169, 79, 158, 33, 66, 132, 21, 42, 84, 168,
  77, 154, 41, 82, 164, 85, 170, 73, 146, 57, 114, 228, 213, 183, 115, 230, 209, 191, 99, 198,
  145, 63, 126, 252, 229, 215, 179, 123, 246, 241, 255, 227, 219, 171, 75, 150, 49, 98, 196, 149,
  55, 110, 220, 165, 87, 174, 65, 130, 25, 50, 100, 200, 141, 7, 14, 28, 56, 112, 224, 221, 167,
  83, 166, 81, 162, 89, 178, 121, 242, 249, 239, 195, 155, 43, 86, 172, 69, 138, 9, 18, 36, 72,
  144, 61, 122, 244, 245, 247, 243, 251, 235, 203, 139, 11, 22, 44, 88, 176, 125, 250, 233, 207,
  131, 27, 54, 108, 216, 173, 71, 142, 1, 2, 4, 8, 16, 32, 64, 128, 29, 58, 116, 232, 205, 135,
  19, 38, 76, 152, 45, 90, 180, 117, 234, 201, 143, 3, 6, 12, 24, 48, 96, 192, 157, 39, 78, 156,
  37, 74, 148, 53, 106, 212, 181, 119, 238, 193, 159, 35, 70, 140, 5, 10, 20, 40, 80, 160, 93,
  186, 105, 210, 185, 111, 222, 161, 95, 190, 97, 194, 153, 47, 94, 188, 101, 202, 137, 15, 30,
  60, 120, 240, 253, 231, 211, 187, 107, 214, 177, 127, 254, 225, 223, 163, 91, 182, 113, 226,
  217, 175, 67, 134, 17, 34, 68, 136, 13, 26, 52, 104, 208, 189, 103, 206, 129, 31, 62, 124, 248,
  237, 199, 147, 59, 118, 236, 197, 151, 51, 102, 204, 133, 23, 46, 92, 184, 109, 218, 169, 79,
  158, 33, 66, 132, 21, 42, 84, 168, 77, 154, 41, 82, 164, 85, 170, 73, 146, 57, 114, 228, 213,
  183, 115, 230, 209, 191, 99, 198, 145, 63, 126, 252, 229, 215, 179, 123, 246, 241, 255, 227,
  219, 171, 75, 150, 49, 98, 196, 149, 55, 110, 220, 165, 87, 174, 65, 130, 25, 50, 100, 200,
  141, 7, 14, 28, 56, 112, 224, 221, 167, 83, 166, 81, 162, 89, 178, 121, 242, 249, 239, 195,
  155, 43, 86, 172, 69, 138, 9, 18, 36, 72, 144, 61, 122, 244, 245, 247, 243, 251, 235, 203, 139,
  11, 22, 44, 88, 176, 125, 250, 233, 207, 131, 27, 54, 108, 216, 173, 71, 142]

/-- A GF(2^8) element is one byte (`struct GF256 { p: u8 }`). -/
def GF256 := Fin 256

instance : DecidableEq GF256 := instDecidableEqFin 256

instance : Fintype GF256 := Fin.fintype 256

instance : OfNat GF256 n := ⟨Fin.ofNat' 256 n⟩

/-- Addition in GF(2^8) is bitwise XOR (`impl Add for GF256`). -/
def gfAdd (a b : GF256) : GF256 :=
  ⟨Nat.xor a.val b.val, Nat.xor_lt_two_pow (n := 8) a.isLt b.isLt⟩

/-- Subtraction in GF(2^8) is also bitwise XOR (`impl Sub for GF256`). -/
def gfSub (a b : GF256) : GF256 := gfAdd a b

/-- Multiplication via the log/exp tables (`impl Mul for GF256`): zero if either
operand is zero, otherwise `EXP[LOG[a] + LOG[b]]`. -/
def gfMul (a b : GF256) : GF256 :=
  if a = 0 ∨ b = 0 then 0
  else GF256_EXP_TABLE.getD
    ((GF256_LOG_TABLE.getD a.val 0).val + (GF256_LOG_TABLE.getD b.val 0).val) 0

/-- Multiplicative inverse (`GF256::inv`): `None` at zero, otherwise
`EXP[(ORDER - 1) - LOG[a]]` with `ORDER - 1 = 255`. -/
def gfInv (a : GF256) : Option GF256 :=
  if a = 0 then none
  else some (GF256_EXP_TABLE.getD (255 - (GF256_LOG_TABLE.getD a.val 0).val) 0)

/-- Division (`impl Div for GF256`): multiply by the inverse; `None` at zero. -/
def gfDiv (a b : GF256) : Option GF256 :=
  (gfInv b).map (fun binv => gfMul a binv)

/-! ## The GF(2^8) decoder (`src/decode.rs`)

The decoder keeps a fixed-size 256-entry pivot array (`MAX_GENERATION_SIZE`),
a row buffer of received packets, and the current rank.  Bytes are `Nat`
values below 256 (`GF256.val` on extraction). -/

/-- Decidable equality on `Except`, needed to settle concrete decoder runs. -/
instance {ε α : Type} [DecidableEq ε] [DecidableEq α] : DecidableEq (Except ε α)
  | .error x, .error y => if h : x = y then .isTrue (by rw [h]) else .isFalse (by simp [h])
  | .error _, .ok _ => .isFalse (by simp)
  | .ok _, .error _ => .isFalse (by simp)
  | .ok x, .ok y => if h : x = y then .isTrue (by rw [h]) else .isFalse (by simp [h])

/-- Boundary marker `0x81` separating payload from padding (`common.rs`). -/
def BOUNDARY_MARKER : Nat := 129

/-- Maximum supported generation size for the static pivot array
(`MAX_GENERATION_SIZE` in `src/decode.rs`). -/
def MAX_GENERATION_SIZE : Nat := 256

/-- A coded packet over GF(2^8): coding vector and data payload
(the packet type consumed by `src/decode.rs`). -/
structure GFPacket where
  coding_vector : List GF256
  data : List GF256
deriving DecidableEq

/-- Error kinds raised by the GF(2^8) decoder.  Modelled from the spec: the
error enum of the GF(2^8) snapshot is not under `src/`; these are precisely
the variants `src/decode.rs` constructs, named as in the spec error taxonomy
(section 7) plus `ZeroChunkCount`, which `src/common.rs` defines. -/
inductive GFError where
  | ZeroChunkCount
  | ZeroPacketCount
  | InvalidCodingVectorLength
  | InvalidEncoding
deriving DecidableEq

/-- Decoder state (`struct Decoder` in `src/decode.rs`): chunk size,
generation size, received packets, the 256-entry column-to-row pivot array,
and the rank. -/
structure GFDecoder where
  chunk_size : Nat
  generation_size : Nat
  data : List GFPacket
  pivot_rows : List (Option Nat)
  rank : Nat
deriving DecidableEq

/-- Constructor `Decoder::new` of `src/decode.rs`: rejects zero chunk size
(with `ZeroChunkCount`), zero generation size, and generation sizes above
`MAX_GENERATION_SIZE`. -/
def GFDecoder.new (chunk_size generation_size : Nat) : Except GFError GFDecoder :=
  if chunk_size = 0 then .error .ZeroChunkCount
  else if generation_size = 0 then .error .ZeroPacketCount
  else if generation_size > MAX_GENERATION_SIZE then .error .InvalidCodingVectorLength
  else .ok ⟨chunk_size, generation_size, [], List.replicate MAX_GENERATION_SIZE none, 0⟩

/-- Helper: first index (counting from `i`) holding a non-zero coefficient,
together with that coefficient. -/
def gfLeadingAux : List GF256 → Nat → Option (Nat × GF256)
  | [], _ => none
  | a :: as, i => if a ≠ 0 then some (i, a) else gfLeadingAux as (i + 1)

/-- Index and value of the first non-zero coefficient of the coding vector
(`RLNCPacket::leading_coefficient` as used by `src/decode.rs`). -/
def GFPacket.leading_coefficient (p : GFPacket) : Option (Nat × GF256) :=
  gfLeadingAux p.coding_vector 0

/-- Row subtraction `dst -= factor * src`, elementwise on coding vector and
data (`Decoder::subtract_row`; the loop bounds equal the vector lengths for
in-contract packets, so `zipWith` matches the in-place loops). -/
def gfSubtractRow (dst src : GFPacket) (factor : GF256) : GFPacket :=
  ⟨List.zipWith (fun d s => gfSub d (gfMul factor s)) dst.coding_vector src.coding_vector,
   List.zipWith (fun d s => gfSub d (gfMul factor s)) dst.data src.data⟩

/-- Helper modelling `iter().enumerate()` starting at index `n`. -/
def enumAux {α : Type} : Nat → List α → List (Nat × α)
  | _, [] => []
  | n, a :: as => (n, a) :: enumAux (n + 1) as

/-- Helper modelling an in-place loop rewriting element `i` with `f i`. -/
def mapIdxAux {α : Type} (f : Nat → α → α) : Nat → List α → List α
  | _, [] => []
  | n, a :: as => f n a :: mapIdxAux f (n + 1) as

/-- Occupied pivot entries in column order, limited to the generation size
(the `pivot_rows.iter().enumerate().filter_map(..).take(generation_size)`
iterator of `src/decode.rs`). -/
def GFDecoder.pivotList (d : GFDecoder) : List (Nat × Nat) :=
  ((enumAux 0 d.pivot_rows).filterMap
    (fun ir => ir.2.map (fun r => (ir.1, r)))).take d.generation_size

/-- Eliminate a packet against the stored pivot rows in column order
(`Decoder::eliminate_packet`).  Out-of-range row indices fall back to an
empty packet; the invariant proofs show the index is always in range. -/
def gfEliminate (d : GFDecoder) (p : GFPacket) : GFPacket :=
  d.pivotList.foldl (fun q cr =>
    let coeff := q.coding_vector.getD cr.1 0
    if coeff ≠ 0 then
      let pivot_row := d.data.getD cr.2 ⟨[], []⟩
      let pivot_coeff := pivot_row.coding_vector.getD cr.1 0
      match gfDiv coeff pivot_coeff with
      | some factor => gfSubtractRow q pivot_row factor
      | none => q
    else q) p

/-- Back-substitution of the freshly inserted row into all earlier rows
(`Decoder::back_substitute`). -/
def gfBackSubstitute (d : GFDecoder) (new_row_idx : Nat) : GFDecoder :=
  let new_row := d.data.getD new_row_idx ⟨[], []⟩
  match new_row.leading_coefficient with
  | none => d
  | some cv =>
    { d with data := mapIdxAux (fun i rowi =>
        if i < new_row_idx then
          let coeff := rowi.coding_vector.getD cv.1 0
          if coeff ≠ 0 then gfSubtractRow rowi new_row coeff else rowi
        else rowi) 0 d.data }

/-- Index (from the front) of the last occurrence of `t`
(`Iterator::rposition`). -/
def rposition (l : List Nat) (t : Nat) : Option Nat :=
  (l.reverse.findIdx? (fun b => b == t)).map (fun i => l.length - 1 - i)

/-- Final extraction (`Decoder::decode_final`): copy the pivot rows back into
per-chunk byte buffers, concatenate in column order, and truncate at the last
boundary marker (error `InvalidEncoding` when no marker exists). -/
def gfDecodeFinal (d : GFDecoder) : Except GFError (Option (List Nat)) :=
  let chunks0 : List (List Nat) :=
    List.replicate d.generation_size (List.replicate d.chunk_size 0)
  let chunks := d.pivotList.foldl (fun cs cr =>
      let row := d.data.getD cr.2 ⟨[], []⟩
      cs.set cr.1 ((List.range d.chunk_size).map (fun i => (row.data.getD i 0).val))) chunks0
  let decoded := chunks.flatten
  match rposition decoded BOUNDARY_MARKER with
  | none => .error .InvalidEncoding
  | some pos => .ok (some (decoded.take pos))

/-- One `Decoder::decode` call of `src/decode.rs`: length check, elimination,
conditional normalization and insertion with back-substitution, and final
extraction once the rank reaches the generation size. -/
def GFDecoder.decode (d : GFDecoder) (packet : GFPacket) :
    Except GFError (Option (List Nat)) × GFDecoder :=
  if packet.coding_vector.length ≠ d.generation_size then
    (.error .InvalidCodingVectorLength, d)
  else
    let p := gfEliminate d packet
    let d1 :=
      match p.leading_coefficient with
      | some cv =>
        if d.pivot_rows.getD cv.1 none = none then
          let leading_coeff := p.coding_vector.getD cv.1 0
          let p1 := match gfInv leading_coeff with
            | some inv_coeff =>
                GFPacket.mk (p.coding_vector.map (fun c => gfMul c inv_coeff))
                            (p.data.map (fun c => gfMul c inv_coeff))
            | none => p
          let d2 := { d with pivot_rows := d.pivot_rows.set cv.1 (some d.data.length),
                             data := d.data ++ [p1],
                             rank := d.rank + 1 }
          gfBackSubstitute d2 (d2.data.length - 1)
        else d
      | none => d
    if d1.rank ≥ d1.generation_size then (gfDecodeFinal d1, d1) else (.ok none, d1)

/-! ## Generic decoder constructor (`crates/rlnc/src/decode.rs`, `src/matrix.rs`)

The generic decoder is parameterized over a field `F`.  Construction-level
state (row buffer, pivot vector of length `chunk_count`, rank) is modelled
with runtime sizes, mirroring `Matrix::new` of `src/matrix.rs`. -/

/-- Chunk-preparation errors (`ChunksError` in `crates/rlnc/src/primitives/mod.rs`). -/
inductive ChunksError where
  | EmptyData
  | ZeroChunkCount
  | ZeroChunkSize
deriving DecidableEq

/-- Modelled from the spec: the generic crate's `RLNCError` (its `common.rs`
is not under `src/`); the variants are the error taxonomy of spec section 7. -/
inductive RLNCError where
  | EmptyData
  | ZeroChunkCount
  | ZeroChunkSize
  | ZeroPacketCount
  | InvalidCodingVectorLength (got expected : Nat)
  | InvalidEncoding
  | NotEnoughPackets (found need : Nat)
deriving DecidableEq

/-- Modelled from the spec: the `From<ChunksError> for RLNCError` conversion
used by `ChunksError::ZeroChunkSize.into()` in `crates/rlnc/src/decode.rs`,
sending each chunk error to the same-named taxonomy kind. -/
def ChunksError.toRLNC : ChunksError → RLNCError
  | .EmptyData => .EmptyData
  | .ZeroChunkCount => .ZeroChunkCount
  | .ZeroChunkSize => .ZeroChunkSize

/-- Runtime view of a stored row: coding vector and data vector over `F`. -/
structure GRow (F : Type) where
  coding_vector : List F
  data : List F

/-- Runtime view of the RREF matrix (`struct Matrix` in `src/matrix.rs`). -/
structure GMatrix (F : Type) where
  chunk_count : Nat
  data : List (GRow F)
  pivots : List (Option Nat)
  rank : Nat

/-- Matrix constructor (`Matrix::new`): empty rows, `chunk_count` empty pivot
slots, rank zero. -/
def GMatrix.new (F : Type) (chunk_count : Nat) : GMatrix F :=
  ⟨chunk_count, [], List.replicate chunk_count none, 0⟩

/-- Runtime view of the generic decoder (`struct Decoder` in
`crates/rlnc/src/decode.rs`). -/
structure GDecoder (F : Type) where
  chunk_size : Nat
  chunk_count : Nat
  matrix : GMatrix F

/-- Generic decoder constructor (`Decoder::new` in `crates/rlnc/src/decode.rs`):
`ZeroChunkSize` for a zero chunk size, `ZeroPacketCount` for a zero chunk
count, otherwise a fresh matrix. -/
def GDecoder.new (F : Type) (chunk_size chunk_count : Nat) :
    Except RLNCError (GDecoder F) :=
  if chunk_size = 0 then .error ChunksError.ZeroChunkSize.toRLNC
  else if chunk_count = 0 then .error .ZeroPacketCount
  else .ok ⟨chunk_size, chunk_count, GMatrix.new F chunk_count⟩

/-! ## The field-generic packet and RREF matrix (`crates/rlnc` generics,
algorithm bodies from `src/matrix.rs` and `src/primitives/packet.rs`)

Vectors of field elements are modelled as functions out of `Fin`; the
dimension checks of the Rust code (`coding_vector.len() == chunk_count`,
matching data lengths) hold by typing.  `F` carries the `ff::Field` trait
bound as a `Field` instance with decidable equality. -/

variable {F : Type} [Field F] [DecidableEq F] {C S : Nat}

/-- Modelled inverse of `ff::Field::invert` (a `CtOption`): `none` at zero,
the multiplicative inverse otherwise. -/
def invert (x : F) : Option F := if x = 0 then none else some x⁻¹

/-- A coded packet (`RLNCPacket` in `crates/rlnc/src/primitives/packet.rs`):
a length-`C` coding vector and a length-`S` data vector. -/
structure RLNCPacket (F : Type) (C S : Nat) where
  coding_vector : Fin C → F
  data : Fin S → F

/-- Row operation `dst -= factor * src` on both components
(`RLNCPacket::subtract_row`). -/
def RLNCPacket.subtract_row (dst src : RLNCPacket F C S) (factor : F) :
    RLNCPacket F C S :=
  ⟨fun i => dst.coding_vector i - factor * src.coding_vector i,
   fun i => dst.data i - factor * src.data i⟩

/-- Helper for `firstNZ`, structurally recursive on remaining fuel. -/
def firstNZAux (v : Fin C → F) : Nat → Nat → Option (Fin C)
  | 0, _ => none
  | fuel + 1, k =>
    if h : k < C then
      (if v ⟨k, h⟩ ≠ 0 then some ⟨k, h⟩ else firstNZAux v fuel (k + 1))
    else none

/-- Helper: first index at or after `k` where `v` is non-zero. -/
def firstNZ (v : Fin C → F) (k : Nat) : Option (Fin C) :=
  firstNZAux v (C - k) k

/-- Index of the first non-zero coefficient of the coding vector
(`RLNCPacket::leading_coefficient`, via `iter().position`). -/
def RLNCPacket.leading_coefficient (p : RLNCPacket F C S) : Option (Fin C) :=
  firstNZ p.coding_vector 0

/-- Scale the packet so the leading coefficient becomes one
(`RLNCPacket::normalize`; the `invert().unwrap()` is modelled by `getD`,
and is shown to never hit `none`). -/
def RLNCPacket.normalize (p : RLNCPacket F C S) : RLNCPacket F C S :=
  match p.leading_coefficient with
  | none => p
  | some col =>
    let inv := (invert (p.coding_vector col)).getD 0
    ⟨fun i => p.coding_vector i * inv, fun i => p.data i * inv⟩

/-- The all-zero packet, used as the (never-reached) out-of-bounds default
for row indexing. -/
def zeroRPacket : RLNCPacket F C S := ⟨fun _ => 0, fun _ => 0⟩

/-- The RREF matrix (`struct Matrix` of `src/matrix.rs`, generic over `F` as
in `crates/rlnc`); `chunk_count` is the type index `C`. -/
structure Matrix (F : Type) (C S : Nat) where
  data : List (RLNCPacket F C S)
  pivots : Fin C → Option Nat
  rank : Nat

/-- Fresh matrix (`Matrix::new`): no rows, all pivots empty, rank zero. -/
def Matrix.new : Matrix F C S := ⟨[], fun _ => none, 0⟩

/-- Row access `self.data[r]` (in-range under the decoder invariant). -/
def Matrix.row (m : Matrix F C S) (r : Nat) : RLNCPacket F C S :=
  m.data.getD r zeroRPacket

/-- Occupied pivot entries in ascending column order
(`pivots.iter().enumerate().filter_map(..).take(chunk_count)`). -/
def Matrix.pivotList (m : Matrix F C S) : List (Fin C × Nat) :=
  ((List.finRange C).filterMap (fun c => (m.pivots c).map (fun r => (c, r)))).take C

/-- Eliminate an incoming packet against all stored pivots in column order
(`Matrix::eliminate`): at each occupied column with a non-zero packet
coefficient, subtract `coeff * pivot_coeff.invert().unwrap()` times the
pivot row. -/
def Matrix.eliminate (m : Matrix F C S) (p : RLNCPacket F C S) : RLNCPacket F C S :=
  m.pivotList.foldl (fun q cr =>
    let coeff := q.coding_vector cr.1
    if coeff = 0 then q
    else q.subtract_row (m.row cr.2)
          (coeff * ((invert ((m.row cr.2).coding_vector cr.1)).getD 0))) p

/-- Back-substitute the freshly inserted row into every earlier row
(`Matrix::back_substitute`). -/
def Matrix.back_substitute (m : Matrix F C S) (new_row_idx : Nat) : Matrix F C S :=
  let new_row := m.row new_row_idx
  match new_row.leading_coefficient with
  | none => m
  | some col =>
    { m with data := mapIdxAux (fun i rowi =>
        if i < new_row_idx then
          (if rowi.coding_vector col = 0 then rowi
           else rowi.subtract_row new_row (rowi.coding_vector col))
        else rowi) 0 m.data }

/-- Completion check (`Matrix::can_decode`): rank has reached `C`. -/
def Matrix.can_decode (m : Matrix F C S) : Bool := decide (C ≤ m.rank)

/-- Absorb one packet into the RREF matrix (`Matrix::push_rref`): eliminate,
then insert (normalized) if a fresh pivot column emerged, back-substituting
into earlier rows; returns whether the matrix just became decodable. -/
def Matrix.push_rref (m : Matrix F C S) (packet : RLNCPacket F C S) :
    Bool × Matrix F C S :=
  let p := m.eliminate packet
  match p.leading_coefficient with
  | some col =>
    if m.pivots col = none then
      let p1 := p.normalize
      let m1 : Matrix F C S :=
        { data := m.data ++ [p1],
          pivots := Function.update m.pivots col (some m.data.length),
          rank := m.rank }
      let m2 := m1.back_substitute (m1.data.length - 1)
      let m3 : Matrix F C S := { m2 with rank := m2.rank + 1 }
      (m3.can_decode, m3)
    else (false, m)
  | none => (false, m)

/-- Final extraction (`Matrix::decode`): refuse below full rank, copy each
pivot row's symbols into its chunk slot, unpack symbols to bytes via `toB`
(`scalars_to_bytes`), concatenate in column order, and truncate at the last
boundary marker. -/
def Matrix.mdecode (toB : F → List Nat) (m : Matrix F C S) :
    Except RLNCError (List Nat) :=
  if ¬ m.can_decode then .error (.NotEnoughPackets m.rank C)
  else
    let chunkSyms : Fin C → Fin S → F :=
      m.pivotList.foldl (fun cs cr => Function.update cs cr.1 (m.row cr.2).data)
        (fun _ _ => 0)
    let decoded := (List.finRange C).flatMap (fun c =>
      (List.finRange S).flatMap (fun j => toB (chunkSyms c j)))
    match rposition decoded BOUNDARY_MARKER with
    | none => .error .InvalidEncoding
    | some pos => .ok (decoded.take pos)

/-- One generic `Decoder::decode` call (`crates/rlnc/src/decode.rs`): push the
packet into the matrix and run final extraction exactly when the push reports
completion.  The coding-vector length check holds by typing. -/
def decoderDecode (toB : F → List Nat) (m : Matrix F C S)
    (packet : RLNCPacket F C S) :
    Except RLNCError (Option (List Nat)) × Matrix F C S :=
  let r := m.push_rref packet
  if r.1 then
    match r.2.mdecode toB with
    | .ok bytes => (.ok (some bytes), r.2)
    | .error e => (.error e, r.2)
  else (.ok none, r.2)

/-! ## The encoder (`src/encode.rs`)

`cap` models the backend's `SAFE_CAPACITY` (31 for the BLS12-381 scalar
field), `fromB` the `Scalar::from_bytes_le` packing of one `cap`-byte group
and `toB` its inverse `to_bytes_le()[..cap]`. -/

/-- Ceiling division `usize::div_ceil` (for positive divisors). -/
def ceilDiv (a b : Nat) : Nat := (a + b - 1) / b

/-- Chunk size chosen by `SecureEncoder::new`: room for the payload plus the
boundary marker, rounded up to a multiple of `cap`. -/
def encChunkSize (plen C cap : Nat) : Nat :=
  ceilDiv (ceilDiv (plen + 1) C) cap * cap

/-- Number of field symbols per chunk (`chunk_size / SAFE_CAPACITY`). -/
def encSymCount (plen C cap : Nat) : Nat := encChunkSize plen C cap / cap

/-- Payload after marker append and zero-padding to `chunk_size * C` bytes
(`data.push(BOUNDARY_MARKER); data.resize(padded_len, 0)`). -/
def encPadded (P : List Nat) (C cap : Nat) : List Nat :=
  (P ++ [BOUNDARY_MARKER]) ++
    List.replicate (encChunkSize P.length C cap * C - (P.length + 1)) 0

/-- The packed chunk symbols (`Chunk::from_bytes` applied to the
`chunks_exact(chunk_size)` slices): symbol `j` of chunk `i` packs bytes
`[i*chunk_size + j*cap, i*chunk_size + (j+1)*cap)` of the padded payload. -/
def encChunks (fromB : List Nat → F) (P : List Nat) (C cap : Nat) :
    Fin C → Fin (encSymCount P.length C cap) → F :=
  fun i j => fromB (((encPadded P C cap).drop
    (i.val * encChunkSize P.length C cap + j.val * cap)).take cap)

/-- Sequential linear-combination kernel (`SecureEncoder::encode_inner`):
results start at zero and accumulate `symbol * coefficient` per chunk,
skipping zero coefficients. -/
def encodeInner (chunks : Fin C → Fin S → F) (cv : Fin C → F) : Fin S → F :=
  (List.finRange C).foldl (fun result i =>
    if cv i = 0 then result
    else fun j => result j + chunks i j * cv i) (fun _ => 0)

/-- `SecureEncoder::encode_with_vector` (sequential path): pair the coding
vector with the combined data vector; the length check holds by typing. -/
def encodeWithVector (chunks : Fin C → Fin S → F) (cv : Fin C → F) :
    RLNCPacket F C S :=
  ⟨cv, encodeInner chunks cv⟩

/-! ## The parallel reduction path of `encode_with_vector`

The rayon pipeline maps each (chunk, coefficient) pair with non-zero
coefficient to its contribution vector, then reduces the ordered
contributions with elementwise addition, splitting arbitrarily and
inserting identity vectors at split boundaries.  A reduction shape is a
binary tree whose in-order leaves are the contributions. -/

/-- The zero symbol vector (`vec![Scalar::ZERO; symbol_count]`). -/
def vzero : Fin S → F := fun _ => 0

/-- Elementwise vector addition (the rayon reduce combiner
`a.iter_mut().zip(b).for_each(|(x, y)| *x += y)`). -/
def vadd (a b : Fin S → F) : Fin S → F := fun j => a j + b j

/-- Ordered per-chunk contributions of the parallel path (`filter_map`
skipping zero coefficients, each worker computing `symbol * coefficient`). -/
def parContribs (chunks : Fin C → Fin S → F) (cv : Fin C → F) :
    List (Fin S → F) :=
  (List.finRange C).filterMap (fun i =>
    if cv i = 0 then none else some (fun j => chunks i j * cv i))

/-- A reduction shape: identity leaves, contribution leaves, binary joins. -/
inductive RTree (α : Type) where
  | leafId : RTree α
  | leaf : α → RTree α
  | node : RTree α → RTree α → RTree α

/-- In-order contribution leaves of a reduction shape. -/
def RTree.flat {α : Type} : RTree α → List α
  | .leafId => []
  | .leaf a => [a]
  | .node l r => l.flat ++ r.flat

/-- Value computed by a reduction shape with identity `idv` and combiner `op`. -/
def RTree.eval {α : Type} (idv : α) (op : α → α → α) : RTree α → α
  | .leafId => idv
  | .leaf a => a
  | .node l r => op (l.eval idv op) (r.eval idv op)

/-! ## Decoder invariants and reachability -/

/-- The RREF well-formedness invariant of the matrix: pivot entries index
live rows bijectively, each pivot row is normalized with its pivot as
leading column, every other row is zero on occupied pivot columns, and the
rank counts the stored rows. -/
structure MInv (m : Matrix F C S) : Prop where
  owner_lt : ∀ c r, m.pivots c = some r → r < m.data.length
  owner_inj : ∀ c c' r, m.pivots c = some r → m.pivots c' = some r → c = c'
  owner_surj : ∀ r, r < m.data.length → ∃ c, m.pivots c = some r
  pivot_one : ∀ c r, m.pivots c = some r → (m.row r).coding_vector c = 1
  pivot_lead : ∀ c r, m.pivots c = some r → ∀ c' : Fin C, c' < c →
      (m.row r).coding_vector c' = 0
  reduced : ∀ c r, m.pivots c = some r → ∀ r', r' < m.data.length → r' ≠ r →
      (m.row r').coding_vector c = 0
  rank_eq : m.rank = m.data.length

/-- A packet is the `cv`-weighted combination of the chunk symbols — the
guarantee `encode_with_vector` provides for every emitted packet. -/
def LinRel (chunks : Fin C → Fin S → F) (p : RLNCPacket F C S) : Prop :=
  ∀ j, p.data j = ∑ i, p.coding_vector i * chunks i j

/-- All stored rows are `cv`-weighted combinations of the chunk symbols. -/
def Coh (chunks : Fin C → Fin S → F) (m : Matrix F C S) : Prop :=
  ∀ r, r < m.data.length → LinRel chunks (m.row r)

/-- Membership of a packet in the row space of the stored rows (coding
vector and data jointly). -/
def InSpan (rows : List (RLNCPacket F C S)) (p : RLNCPacket F C S) : Prop :=
  ∃ g : Nat → F,
    (∀ c, p.coding_vector c = ∑ i ∈ Finset.range rows.length,
      g i * (rows.getD i zeroRPacket).coding_vector c) ∧
    (∀ j, p.data j = ∑ i ∈ Finset.range rows.length,
      g i * (rows.getD i zeroRPacket).data j)

/-- Matrix states reachable from `Matrix::new` by any sequence of
`push_rref` calls (hence by any sequence of `decode` calls). -/
inductive MReach : Matrix F C S → Prop where
  | init : MReach Matrix.new
  | step : ∀ m p, MReach m → MReach (m.push_rref p).2

/-- Matrix states reachable by feeding only packets produced by
`encode_with_vector` over the given chunks. -/
inductive EncReach (chunks : Fin C → Fin S → F) : Matrix F C S → Prop where
  | init : EncReach chunks Matrix.new
  | step : ∀ m v, EncReach chunks m →
      EncReach chunks (m.push_rref (encodeWithVector chunks v)).2

/-- Well-formedness of the GF(2^8) decoder state: the pivot array has its
static 256 entries, only columns below the generation size are occupied,
occupied entries index live rows, the rank counts occupied entries, and all
stored coding vectors have generation-size length. -/
structure GFInv (d : GFDecoder) : Prop where
  pivlen : d.pivot_rows.length = 256
  genle : d.generation_size ≤ 256
  inrange : ∀ i, d.generation_size ≤ i → d.pivot_rows.getD i none = none
  count_eq : (d.pivot_rows.filter (fun o => o.isSome)).length = d.rank
  owner_lt : ∀ i r, d.pivot_rows.getD i none = some r → r < d.data.length
  rowlen : ∀ row ∈ d.data, row.coding_vector.length = d.generation_size

/-- GF(2^8) decoder states reachable from a successful `Decoder::new` by any
sequence of `decode` calls. -/
inductive GFReachable : GFDecoder → Prop where
  | init : ∀ cs gs d, GFDecoder.new cs gs = .ok d → GFReachable d
  | step : ∀ d p, GFReachable d → GFReachable (d.decode p).2

/-! ## A concrete instantiation of the field trait used to exercise the
generic theorems: the prime field of order 257 with one-byte capacity.
Operations are table-and-modulus based so that concrete decoder runs reduce
inside the kernel. -/

/-- The 257-element prime field, represented as `Fin 257`. -/
def F257 := Fin 257

instance : DecidableEq F257 := instDecidableEqFin 257

instance : Fintype F257 := Fin.fintype 257

instance : CommRing F257 := inferInstanceAs (CommRing (Fin 257))

/-- Underlying value of an `F257` element. -/
def F257.val : F257 → Nat
  | ⟨v, _⟩ => v

/-- Precomputed multiplicative inverses modulo 257 (index 0 unused). -/
def F257_INV_TABLE : List F257 := [0, 1, 129, 86, 193, 103, 43, 147, 225, 200, 180, 187, 150, 178, 202, 120, 241, 121, 100, 230, 90, 49, 222, 190, 75, 72, 89, 238, 101, 195, 60, 199, 249, 148, 189, 235, 50, 132, 115, 145, 45, 163, 153, 6, 111, 40, 95, 175, 166, 21, 36, 126, 173, 97, 119, 243, 179, 248, 226, 61, 30, 59, 228, 102, 253, 87, 74, 234, 223, 149, 246, 181, 25, 169, 66, 24, 186, 247, 201, 244, 151, 165, 210, 96, 205, 127, 3, 65, 184, 26, 20, 209, 176, 152, 216, 46, 83, 53, 139, 135, 18, 28, 63, 5, 215, 164, 177, 245, 188, 224, 250, 44, 218, 116, 124, 38, 113, 134, 159, 54, 15, 17, 158, 140, 114, 220, 51, 85, 255, 2, 172, 206, 37, 143, 117, 99, 240, 242, 203, 98, 123, 144, 219, 133, 141, 39, 213, 7, 33, 69, 12, 80, 93, 42, 252, 194, 229, 239, 122, 118, 204, 174, 211, 41, 105, 81, 48, 237, 231, 73, 192, 254, 130, 52, 161, 47, 92, 106, 13, 56, 10, 71, 233, 191, 88, 232, 76, 11, 108, 34, 23, 183, 170, 4, 155, 29, 198, 227, 196, 31, 9, 78, 14, 138, 160, 84, 131, 221, 236, 91, 82, 162, 217, 146, 251, 104, 94, 212, 112, 142, 125, 207, 22, 68, 109, 8, 58, 197, 62, 156, 19, 168, 185, 182, 67, 35, 208, 167, 27, 157, 136, 16, 137, 55, 79, 107, 70, 77, 57, 32, 110, 214, 154, 64, 171, 128, 256]

instance : Inv F257 := ⟨fun a => F257_INV_TABLE.getD a.val 0⟩

instance : Field F257 := { (inferInstanceAs (CommRing F257)) with
  inv := (·⁻¹)
  exists_pair_ne := ⟨0, 1, by decide⟩
  mul_inv_cancel := by decide
  inv_zero := by decide
  nnqsmul := _
  qsmul := _ }

/-- Byte unpacking for the witness backend: one byte per element. -/
def toB257 (x : F257) : List Nat := [x.val]

/-- Byte packing for the witness backend: value of one little-endian byte. -/
def fromB257 (l : List Nat) : F257 := Fin.ofNat' 257 (l.headD 0)


/-- Linear offset of `q` from `p` by a combination of the stored rows
(used to track elimination and back-substitution algebraically). -/
def CombOffset (m : Matrix F C S) (p q : RLNCPacket F C S) : Prop :=
  ∃ g : Nat → F,
    (∀ c, q.coding_vector c = p.coding_vector c -
      ∑ i ∈ Finset.range m.data.length, g i * (m.row i).coding_vector c) ∧
    (∀ j, q.data j = p.data j -
      ∑ i ∈ Finset.range m.data.length, g i * (m.row i).data j)

/-! # Theorems

Helper lemmas first, then one named theorem (with witness or counterexample
where applicable) per specification claim. -/

/-! ## List helpers -/

theorem mapIdxAux_length {α : Type} (f : Nat → α → α) (n : Nat) (l : List α) :
    (mapIdxAux f n l).length = l.length := by
  induction l generalizing n with
  | nil => rfl
  | cons a as ih => simp [mapIdxAux, ih]

theorem mapIdxAux_getD {α : Type} (f : Nat → α → α) (n : Nat) (l : List α)
    (i : Nat) (d : α) (hi : i < l.length) :
    (mapIdxAux f n l).getD i d = f (n + i) (l.getD i d) := by
  induction l generalizing n i with
  | nil => simp at hi
  | cons a as ih =>
    cases i with
    | zero => simp [mapIdxAux]
    | succ j =>
      simp only [mapIdxAux, List.getD_cons_succ]
      rw [ih (n + 1) j (by simpa using hi)]
      ring_nf

theorem enumAux_mem {α : Type} (n : Nat) (l : List α) (i : Nat) (x : α) (d : α)
    (h : (i, x) ∈ enumAux n l) :
    n ≤ i ∧ i - n < l.length ∧ l.getD (i - n) d = x := by
  induction l generalizing n with
  | nil => simp [enumAux] at h
  | cons a as ih =>
    simp only [enumAux, List.mem_cons] at h
    rcases h with h | h
    · injection h with h1 h2
      subst h1
      subst h2
      refine ⟨Nat.le_refl _, by simp, by simp⟩
    · obtain ⟨h1, h2, h3⟩ := ih (n + 1) h
      refine ⟨by omega, by simp; omega, ?_⟩
      have : i - n = (i - (n + 1)) + 1 := by omega
      rw [this, List.getD_cons_succ, h3]

theorem enumAux_mem_of {α : Type} (n : Nat) (l : List α) (j : Nat) (d : α)
    (hj : j < l.length) : (n + j, l.getD j d) ∈ enumAux n l := by
  induction l generalizing n j with
  | nil => simp at hj
  | cons a as ih =>
    cases j with
    | zero => simp [enumAux]
    | succ k =>
      simp only [enumAux, List.mem_cons]
      right
      have := ih (n + 1) k (by simpa using hj)
      simpa [Nat.add_comm, Nat.add_left_comm, Nat.add_assoc] using this

theorem filter_length_eq_iff {α : Type} (p : α → Bool) (l : List α) :
    (l.filter p).length = l.length ↔ ∀ x ∈ l, p x = true := by
  induction l with
  | nil => simp
  | cons a as ih =>
    by_cases h : p a = true
    · simp [h, ih]
    · have hlt : (as.filter p).length ≤ as.length := List.length_filter_le p as
      constructor
      · intro hlen
        rw [List.filter_cons, if_neg (by simp [h])] at hlen
        simp only [List.length_cons] at hlen
        omega
      · intro hall
        exact absurd (hall a (List.mem_cons_self a as)) h

/-! ## Leading-coefficient characterization -/


variable {F : Type} [Field F] [DecidableEq F] {C S : Nat}

theorem firstNZAux_some_spec (v : Fin C → F) :
    ∀ (fuel k : Nat) (c : Fin C), firstNZAux v fuel k = some c →
      k ≤ c.val ∧ v c ≠ 0 ∧ ∀ j : Fin C, k ≤ j.val → j.val < c.val → v j = 0 := by
  intro fuel
  induction fuel with
  | zero => intro k c h; simp [firstNZAux] at h
  | succ n ih =>
    intro k c h
    simp only [firstNZAux] at h
    split at h
    next hk =>
      split at h
      next hnz =>
        cases h
        refine ⟨Nat.le_refl _, hnz, fun j hj1 hj2 => ?_⟩
        simp only [Fin.val_mk] at hj2
        omega
      next hnz =>
        obtain ⟨h1, h2, h3⟩ := ih (k + 1) c h
        refine ⟨by omega, h2, fun j hj1 hj2 => ?_⟩
        by_cases hjk : j.val = k
        · have hj : j = ⟨k, hk⟩ := Fin.ext hjk
          rw [hj]
          exact not_not.mp hnz
        · exact h3 j (by omega) hj2
    next => exact absurd h (by simp)

theorem firstNZAux_none_spec (v : Fin C → F) :
    ∀ (fuel k : Nat), C ≤ k + fuel → firstNZAux v fuel k = none →
      ∀ j : Fin C, k ≤ j.val → v j = 0 := by
  intro fuel
  induction fuel with
  | zero =>
    intro k hk _ j hj
    exact absurd (j.isLt) (by omega)
  | succ n ih =>
    intro k hk h j hj
    simp only [firstNZAux] at h
    split at h
    next hklt =>
      split at h
      next hnz => exact absurd h (by simp)
      next hnz =>
        by_cases hjk : j.val = k
        · have hje : j = ⟨k, hklt⟩ := Fin.ext hjk
          rw [hje]
          exact not_not.mp hnz
        · exact ih (k + 1) (by omega) h j (by omega)
    next hklt => exact absurd (j.isLt) (by omega)

theorem leading_some_spec (p : RLNCPacket F C S) (c : Fin C)
    (h : p.leading_coefficient = some c) :
    p.coding_vector c ≠ 0 ∧ ∀ j : Fin C, j < c → p.coding_vector j = 0 := by
  obtain ⟨_, h2, h3⟩ := firstNZAux_some_spec p.coding_vector (C - 0) 0 c h
  exact ⟨h2, fun j hj => h3 j (Nat.zero_le _) hj⟩

theorem leading_none_spec (p : RLNCPacket F C S)
    (h : p.leading_coefficient = none) : ∀ j, p.coding_vector j = 0 := by
  intro j
  exact firstNZAux_none_spec p.coding_vector (C - 0) 0 (by omega) h j (Nat.zero_le _)

theorem leading_eq_some_intro (p : RLNCPacket F C S) (c : Fin C)
    (hc : p.coding_vector c ≠ 0) (hz : ∀ j : Fin C, j < c → p.coding_vector j = 0) :
    p.leading_coefficient = some c := by
  cases hlead : p.leading_coefficient with
  | none => exact absurd (leading_none_spec p hlead c) hc
  | some c2 =>
    obtain ⟨h2, h3⟩ := leading_some_spec p c2 hlead
    rcases Nat.lt_trichotomy c2.val c.val with hlt | heq | hgt
    · exact absurd (hz c2 hlt) h2
    · rw [Fin.ext heq]
    · exact absurd (h3 c hgt) hc


/-! ## Claims settled on the GF(2^8) backend and the constructors -/


/-- C8: in GF(2^8), multiplication is zero if an operand is zero and
`EXP[LOG[a] + LOG[b]]` otherwise; the inverse of non-zero `x` is
`EXP[255 - LOG[x]]` and satisfies `x * inv x = one`; `inv 0` is `none`. -/
theorem gf256_mul_inv_one :
    (∀ x : GF256, x ≠ 0 → ∃ y, gfInv x = some y ∧ gfMul x y = 1) ∧
    gfInv 0 = none ∧
    (∀ a b : GF256, a ≠ 0 → b ≠ 0 →
      gfMul a b = GF256_EXP_TABLE.getD
        ((GF256_LOG_TABLE.getD a.val 0).val + (GF256_LOG_TABLE.getD b.val 0).val) 0) ∧
    (∀ b : GF256, gfMul 0 b = 0 ∧ gfMul b 0 = 0) := by
  refine ⟨by decide, by decide, ?_, ?_⟩
  · intro a b ha hb
    simp [gfMul, ha, hb]
  · intro b
    exact ⟨by simp [gfMul], by simp [gfMul]⟩

/-- Witness for C8 at the concrete non-zero element 2. -/
theorem gf256_mul_inv_one_witness :
    ∃ y, gfInv 2 = some y ∧ gfMul 2 y = 1 :=
  gf256_mul_inv_one.1 2 (by decide)

/-- C9: the GF(2^8) `Decoder::new` rejects every generation size above 256
with `InvalidCodingVectorLength`. -/
theorem gf256_new_rejects_large_generation (cs gs : Nat) (hcs : cs ≠ 0)
    (hgs : 256 < gs) :
    GFDecoder.new cs gs = .error .InvalidCodingVectorLength := by
  unfold GFDecoder.new MAX_GENERATION_SIZE
  rw [if_neg hcs, if_neg (by omega), if_pos (by omega)]

/-- Witness for C9 at chunk size 1, generation size 257. -/
theorem gf256_new_rejects_large_generation_witness :
    GFDecoder.new 1 257 = .error .InvalidCodingVectorLength :=
  gf256_new_rejects_large_generation 1 257 (by decide) (by decide)

/-- Counterexample to C6 as stated: the GF(2^8) decoder reports
`ZeroChunkCount` (not `ZeroChunkSize`) for a zero chunk size, and fails on
the positive inputs (1, 257) instead of succeeding. -/
theorem decoder_new_cex :
    GFDecoder.new 0 1 = .error GFError.ZeroChunkCount ∧
    GFDecoder.new 1 257 = .error GFError.InvalidCodingVectorLength := by
  exact ⟨rfl, by decide⟩

/-- C6 (amended): the generic decoder fails `ZeroChunkSize` / `ZeroPacketCount`
on zero inputs and succeeds on positive inputs with an empty row buffer, a
size-`C` all-empty pivot table and rank 0; the GF(2^8) decoder instead
reports `ZeroChunkCount` for a zero chunk size, rejects generation sizes
above 256, and on success holds an all-empty pivot table of fixed size 256. -/
theorem decoder_new_behavior :
    (∀ (F : Type) (C : Nat), GDecoder.new F 0 C = .error RLNCError.ZeroChunkSize) ∧
    (∀ (F : Type) (cs C : Nat), cs ≠ 0 → C = 0 →
      GDecoder.new F cs C = .error RLNCError.ZeroPacketCount) ∧
    (∀ (F : Type) (cs C : Nat), cs ≠ 0 → C ≠ 0 →
      GDecoder.new F cs C = .ok ⟨cs, C, ⟨C, [], List.replicate C none, 0⟩⟩) ∧
    (∀ g : Nat, GFDecoder.new 0 g = .error GFError.ZeroChunkCount) ∧
    (∀ cs : Nat, cs ≠ 0 → GFDecoder.new cs 0 = .error GFError.ZeroPacketCount) ∧
    (∀ cs g : Nat, cs ≠ 0 → g ≠ 0 → g ≤ 256 →
      GFDecoder.new cs g = .ok ⟨cs, g, [], List.replicate 256 none, 0⟩) ∧
    (∀ cs g : Nat, cs ≠ 0 → 256 < g →
      GFDecoder.new cs g = .error GFError.InvalidCodingVectorLength) := by
  refine ⟨?_, ?_, ?_, ?_, ?_, ?_, ?_⟩
  · intro F C
    rfl
  · intro F cs C hcs hC
    unfold GDecoder.new
    rw [if_neg hcs, if_pos hC]
  · intro F cs C hcs hC
    unfold GDecoder.new
    rw [if_neg hcs, if_neg hC]
    rfl
  · intro g
    rfl
  · intro cs hcs
    unfold GFDecoder.new
    rw [if_neg hcs, if_pos rfl]
  · intro cs g hcs hg hg2
    unfold GFDecoder.new MAX_GENERATION_SIZE
    rw [if_neg hcs, if_neg hg, if_neg (by omega)]
  · intro cs g hcs hg
    unfold GFDecoder.new MAX_GENERATION_SIZE
    rw [if_neg hcs, if_neg (by omega), if_pos (by omega)]

/-- Witness for the amended C6: concrete successful constructions. -/
theorem decoder_new_behavior_witness :
    GDecoder.new Nat 3 2 = .ok ⟨3, 2, ⟨2, [], List.replicate 2 none, 0⟩⟩ ∧
    GFDecoder.new 4 2 = .ok ⟨4, 2, [], List.replicate 256 none, 0⟩ :=
  ⟨decoder_new_behavior.2.2.1 Nat 3 2 (by decide) (by decide),
   decoder_new_behavior.2.2.2.2.2.1 4 2 (by decide) (by decide) (by decide)⟩

/-- Counterexample to C5 as stated: a reachable GF(2^8) decoder at full rank
returns `Some` for both feeds of the same packet (the second feed is not
`None`). -/
theorem duplicate_feed_second_some_cex :
    GFDecoder.new 2 1 = .ok ⟨2, 1, [], List.replicate 256 none, 0⟩ ∧
    (GFDecoder.decode ⟨2, 1, [], List.replicate 256 none, 0⟩
        ⟨[1], [65, 129]⟩).1 = .ok (some [65]) ∧
    (GFDecoder.decode
        (GFDecoder.decode ⟨2, 1, [], List.replicate 256 none, 0⟩
          ⟨[1], [65, 129]⟩).2
        ⟨[1], [65, 129]⟩).1 = .ok (some [65]) := by
  refine ⟨by decide, by decide, by decide⟩


/-! ## RREF elimination and insertion lemmas -/

variable {F : Type} [Field F] [DecidableEq F] {C S : Nat}




theorem Matrix.row_eq_get (m : Matrix F C S) (r : Nat) (hr : r < m.data.length) :
    m.row r = m.data.get ⟨r, hr⟩ := by
  simp [Matrix.row, List.getD_eq_getElem?_getD, List.getElem?_eq_getElem hr]

theorem pivotList_length_le (m : Matrix F C S) :
    ((List.finRange C).filterMap
      (fun c => (m.pivots c).map (fun r => (c, r)))).length ≤ C := by
  calc ((List.finRange C).filterMap _).length ≤ (List.finRange C).length :=
        List.length_filterMap_le _ _
    _ = C := List.length_finRange C

theorem pivotList_eq (m : Matrix F C S) :
    m.pivotList = (List.finRange C).filterMap
      (fun c => (m.pivots c).map (fun r => (c, r))) := by
  unfold Matrix.pivotList
  exact List.take_of_length_le (pivotList_length_le m)

theorem mem_pivotList_iff (m : Matrix F C S) (c : Fin C) (r : Nat) :
    (c, r) ∈ m.pivotList ↔ m.pivots c = some r := by
  rw [pivotList_eq]
  constructor
  · intro h
    obtain ⟨c2, hc2, hmap⟩ := List.mem_filterMap.mp h
    cases hpiv : m.pivots c2 with
    | none =>
      rw [hpiv] at hmap
      exact absurd hmap (by simp)
    | some r2 =>
      rw [hpiv] at hmap
      simp only [Option.map_some'] at hmap
      injection hmap with h1
      injection h1 with hc hr
      subst hc
      subst hr
      exact hpiv
  · intro h
    exact List.mem_filterMap.mpr ⟨c, List.mem_finRange c, by rw [h]; rfl⟩

theorem invert_one_getD : ((invert (1 : F)).getD 0) = 1 := by
  rw [invert, if_neg one_ne_zero, Option.getD_some, inv_one]

/-- One elimination step zeroes the processed pivot column. -/
theorem elimStep_zeroes (m : Matrix F C S) (hInv : MInv m) (c0 : Fin C) (r0 : Nat)
    (h0 : m.pivots c0 = some r0) (q : RLNCPacket F C S) :
    (if q.coding_vector c0 = 0 then q
     else q.subtract_row (m.row r0)
       (q.coding_vector c0 * ((invert ((m.row r0).coding_vector c0)).getD 0))).coding_vector c0
      = 0 := by
  by_cases hz : q.coding_vector c0 = 0
  · rw [if_pos hz]
    exact hz
  · rw [if_neg hz]
    have h1 : (m.row r0).coding_vector c0 = 1 := hInv.pivot_one c0 r0 h0
    simp only [RLNCPacket.subtract_row, h1, invert_one_getD]
    ring

/-- One elimination step keeps other occupied pivot columns at zero. -/
theorem elimStep_preserves (m : Matrix F C S) (hInv : MInv m) (c0 : Fin C) (r0 : Nat)
    (h0 : m.pivots c0 = some r0) (c : Fin C) (r : Nat) (hc : m.pivots c = some r)
    (hne : c ≠ c0) (q : RLNCPacket F C S) (hq : q.coding_vector c = 0) :
    (if q.coding_vector c0 = 0 then q
     else q.subtract_row (m.row r0)
       (q.coding_vector c0 * ((invert ((m.row r0).coding_vector c0)).getD 0))).coding_vector c
      = 0 := by
  by_cases hz : q.coding_vector c0 = 0
  · rw [if_pos hz]
    exact hq
  · rw [if_neg hz]
    have hr0r : r0 ≠ r := by
      intro hrr
      exact hne (hInv.owner_inj c0 c r0 (by rw [hrr] at h0 ⊢; exact h0) (hrr ▸ hc)).symm
    have hzero : (m.row r0).coding_vector c = 0 :=
      hInv.reduced c r hc r0 (hInv.owner_lt c0 r0 h0) hr0r
    simp only [RLNCPacket.subtract_row, hzero, hq]
    ring

/-- After folding elimination steps over genuine pivot entries, every column
either listed or already zero ends up zero. -/
theorem elim_fold_zeros (m : Matrix F C S) (hInv : MInv m) :
    ∀ (L : List (Fin C × Nat)) (q : RLNCPacket F C S),
      (∀ x ∈ L, m.pivots x.1 = some x.2) →
      ∀ c r, m.pivots c = some r → ((c, r) ∈ L ∨ q.coding_vector c = 0) →
        (L.foldl (fun q cr =>
          let coeff := q.coding_vector cr.1
          if coeff = 0 then q
          else q.subtract_row (m.row cr.2)
            (coeff * ((invert ((m.row cr.2).coding_vector cr.1)).getD 0))) q).coding_vector c
          = 0 := by
  intro L
  induction L with
  | nil =>
    intro q _ c r hc hor
    rcases hor with h | h
    · simp at h
    · exact h
  | cons x L ih =>
    intro q hgen c r hc hor
    simp only [List.foldl_cons]
    apply ih _ (fun y hy => hgen y (List.mem_cons_of_mem x hy)) c r hc
    have hx : m.pivots x.1 = some x.2 := hgen x (List.mem_cons_self x L)
    rcases hor with h | h
    · rcases List.mem_cons.mp h with hhead | htail
      · right
        have hx1 : x.1 = c := by rw [← hhead]
        rw [← hx1]
        exact elimStep_zeroes m hInv x.1 x.2 hx q
      · left
        exact htail
    · by_cases hcc : c = x.1
      · right
        subst hcc
        exact elimStep_zeroes m hInv x.1 x.2 hx q
      · right
        exact elimStep_preserves m hInv x.1 x.2 hx c r hc hcc q h

/-- `eliminate` zeroes every occupied pivot column of the packet. -/
theorem eliminate_zeros (m : Matrix F C S) (hInv : MInv m) (p : RLNCPacket F C S)
    (c : Fin C) (r : Nat) (hc : m.pivots c = some r) :
    (m.eliminate p).coding_vector c = 0 := by
  unfold Matrix.eliminate
  exact elim_fold_zeros m hInv m.pivotList p
    (fun x hx => (mem_pivotList_iff m x.1 x.2).mp (by cases x; exact hx))
    c r hc (Or.inl ((mem_pivotList_iff m c r).mpr hc))





theorem normalize_eq (p : RLNCPacket F C S) (col : Fin C)
    (h : p.leading_coefficient = some col) :
    p.normalize = ⟨fun i => p.coding_vector i * (p.coding_vector col)⁻¹,
                   fun i => p.data i * (p.coding_vector col)⁻¹⟩ := by
  have hnz : p.coding_vector col ≠ 0 := (leading_some_spec p col h).1
  simp only [RLNCPacket.normalize, h, invert, if_neg hnz, Option.getD_some]

theorem back_substitute_eq (m : Matrix F C S) (idx : Nat) (col : Fin C)
    (hlead : (m.row idx).leading_coefficient = some col) :
    m.back_substitute idx =
      { m with data := mapIdxAux (fun i rowi =>
          if i < idx then
            (if rowi.coding_vector col = 0 then rowi
             else rowi.subtract_row (m.row idx) (rowi.coding_vector col))
          else rowi) 0 m.data } := by
  simp only [Matrix.back_substitute, hlead]

theorem push_rref_spec (m : Matrix F C S) (pkt : RLNCPacket F C S) :
    ((m.push_rref pkt).2 = m ∧ (m.push_rref pkt).1 = false ∧
      (∀ col, (m.eliminate pkt).leading_coefficient = some col →
        m.pivots col ≠ none))
    ∨ (∃ col, (m.eliminate pkt).leading_coefficient = some col ∧
        m.pivots col = none ∧
        m.push_rref pkt =
          (let p1 := (m.eliminate pkt).normalize
           let m1 : Matrix F C S :=
             { data := m.data ++ [p1],
               pivots := Function.update m.pivots col (some m.data.length),
               rank := m.rank }
           let m2 := m1.back_substitute (m1.data.length - 1)
           ((⟨m2.data, m2.pivots, m2.rank + 1⟩ : Matrix F C S).can_decode,
            (⟨m2.data, m2.pivots, m2.rank + 1⟩ : Matrix F C S)))) := by
  simp only [Matrix.push_rref]
  split
  next col heq =>
    by_cases hocc : m.pivots col = none
    · right
      refine ⟨col, heq, hocc, ?_⟩
      rw [if_pos hocc]
    · left
      rw [if_neg hocc]
      refine ⟨rfl, rfl, fun col2 hcol2 => ?_⟩
      rw [heq] at hcol2
      injection hcol2 with hc
      rw [← hc]
      exact hocc
  next heq =>
    left
    exact ⟨rfl, rfl, fun col hcol => by rw [heq] at hcol; exact absurd hcol (by simp)⟩





/-- An insertion step (normalize, append, set pivot, back-substitute,
increment rank) preserves the RREF invariant. -/
theorem MInv_insert (m : Matrix F C S) (hInv : MInv m) (col : Fin C)
    (p1 : RLNCPacket F C S) (hocc : m.pivots col = none)
    (hp1col : p1.coding_vector col = 1)
    (hp1lt : ∀ j : Fin C, j < col → p1.coding_vector j = 0)
    (hp1occ : ∀ c r, m.pivots c = some r → p1.coding_vector c = 0)
    (mr : Matrix F C S)
    (hdata : mr.data = mapIdxAux (fun i rowi =>
        if i < m.data.length then
          (if rowi.coding_vector col = 0 then rowi
           else rowi.subtract_row p1 (rowi.coding_vector col))
        else rowi) 0 (m.data ++ [p1]))
    (hpiv : mr.pivots = Function.update m.pivots col (some m.data.length))
    (hrank : mr.rank = m.rank + 1) :
    MInv mr := by
  have hlen2 : mr.data.length = m.data.length + 1 := by
    rw [hdata, mapIdxAux_length]
    simp
  have hrowN : mr.row m.data.length = p1 := by
    rw [Matrix.row, hdata,
      mapIdxAux_getD _ 0 _ _ _ (by simp), Nat.zero_add, if_neg (by omega),
      List.getD_append_right _ _ _ _ (Nat.le_refl _), Nat.sub_self]
    rfl
  have hrowlt : ∀ r, r < m.data.length → mr.row r =
      (if (m.row r).coding_vector col = 0 then m.row r
       else (m.row r).subtract_row p1 ((m.row r).coding_vector col)) := by
    intro r hr
    rw [Matrix.row, hdata,
      mapIdxAux_getD _ 0 _ _ _ (by simp; omega), Nat.zero_add, if_pos hr,
      List.getD_append _ _ _ _ hr]
    rfl
  -- pivot lookups in the updated table
  have hpivcol : mr.pivots col = some m.data.length := by
    rw [hpiv, Function.update_same]
  have hpivne : ∀ c : Fin C, c ≠ col → mr.pivots c = m.pivots c := by
    intro c hc
    rw [hpiv, Function.update_noteq hc]
  refine ⟨?_, ?_, ?_, ?_, ?_, ?_, ?_⟩
  · -- owner_lt
    intro c r hc
    by_cases hcc : c = col
    · subst hcc
      rw [hpivcol] at hc
      injection hc with hc
      omega
    · rw [hpivne c hcc] at hc
      have := hInv.owner_lt c r hc
      omega
  · -- owner_inj
    intro c c2 r hc hc2
    by_cases hcc : c = col <;> by_cases hcc2 : c2 = col
    · rw [hcc, hcc2]
    · subst hcc
      rw [hpivcol] at hc
      injection hc with hc
      rw [hpivne c2 hcc2] at hc2
      have := hInv.owner_lt c2 r hc2
      omega
    · subst hcc2
      rw [hpivcol] at hc2
      injection hc2 with hc2
      rw [hpivne c hcc] at hc
      have := hInv.owner_lt c r hc
      omega
    · rw [hpivne c hcc] at hc
      rw [hpivne c2 hcc2] at hc2
      exact hInv.owner_inj c c2 r hc hc2
  · -- owner_surj
    intro r hr
    rw [hlen2] at hr
    by_cases hrN : r = m.data.length
    · exact ⟨col, by rw [hrN]; exact hpivcol⟩
    · obtain ⟨c, hc⟩ := hInv.owner_surj r (by omega)
      have hcne : c ≠ col := fun hcc => by rw [hcc, hocc] at hc; exact absurd hc (by simp)
      exact ⟨c, by rw [hpivne c hcne]; exact hc⟩
  · -- pivot_one
    intro c r hc
    by_cases hcc : c = col
    · subst hcc
      rw [hpivcol] at hc
      injection hc with hc
      rw [← hc, hrowN]
      exact hp1col
    · rw [hpivne c hcc] at hc
      have hrlt := hInv.owner_lt c r hc
      rw [hrowlt r hrlt]
      by_cases hz : (m.row r).coding_vector col = 0
      · rw [if_pos hz]
        exact hInv.pivot_one c r hc
      · rw [if_neg hz]
        simp only [RLNCPacket.subtract_row]
        rw [hp1occ c r hc, hInv.pivot_one c r hc]
        ring
  · -- pivot_lead
    intro c r hc c2 hc2
    by_cases hcc : c = col
    · subst hcc
      rw [hpivcol] at hc
      injection hc with hc
      rw [← hc, hrowN]
      exact hp1lt c2 hc2
    · rw [hpivne c hcc] at hc
      have hrlt := hInv.owner_lt c r hc
      rw [hrowlt r hrlt]
      by_cases hz : (m.row r).coding_vector col = 0
      · rw [if_pos hz]
        exact hInv.pivot_lead c r hc c2 hc2
      · rw [if_neg hz]
        simp only [RLNCPacket.subtract_row]
        by_cases hc2col : c2 = col
        · subst hc2col
          rw [hp1col, hInv.pivot_lead c r hc c2 hc2]
          ring
        · have hclt : c < col := by
            rcases lt_trichotomy c col with h | h | h
            · exact h
            · exact absurd h hcc
            · exact absurd (hInv.pivot_lead c r hc col h) hz
          rw [hInv.pivot_lead c r hc c2 hc2, hp1lt c2 (lt_trans hc2 hclt)]
          ring
  · -- reduced
    intro c r hc r2 hr2 hner
    rw [hlen2] at hr2
    by_cases hcc : c = col
    · subst hcc
      rw [hpivcol] at hc
      injection hc with hc
      by_cases hr2N : r2 = m.data.length
      · exact absurd (by rw [hr2N]; exact hc) hner
      · rw [hrowlt r2 (by omega)]
        by_cases hz : (m.row r2).coding_vector c = 0
        · rw [if_pos hz]
          exact hz
        · rw [if_neg hz]
          simp only [RLNCPacket.subtract_row]
          rw [hp1col]
          ring
    · rw [hpivne c hcc] at hc
      by_cases hr2N : r2 = m.data.length
      · rw [hr2N, hrowN]
        exact hp1occ c r hc
      · have hred : (m.row r2).coding_vector c = 0 :=
          hInv.reduced c r hc r2 (by omega) hner
        rw [hrowlt r2 (by omega)]
        by_cases hz : (m.row r2).coding_vector col = 0
        · rw [if_pos hz]
          exact hred
        · rw [if_neg hz]
          simp only [RLNCPacket.subtract_row]
          rw [hred, hp1occ c r hc]
          ring
  · -- rank_eq
    rw [hrank, hlen2, hInv.rank_eq]





/-- `push_rref` preserves the RREF invariant. -/
theorem push_rref_MInv (m : Matrix F C S) (hInv : MInv m) (pkt : RLNCPacket F C S) :
    MInv (m.push_rref pkt).2 := by
  rcases push_rref_spec m pkt with ⟨hm, _, _⟩ | ⟨col, hlead, hocc, heq⟩
  · rw [hm]
    exact hInv
  · have hnz : (m.eliminate pkt).coding_vector col ≠ 0 :=
      (leading_some_spec _ col hlead).1
    have hlt : ∀ j : Fin C, j < col → (m.eliminate pkt).coding_vector j = 0 :=
      (leading_some_spec _ col hlead).2
    have hoccz : ∀ c r, m.pivots c = some r → (m.eliminate pkt).coding_vector c = 0 :=
      fun c r hc => eliminate_zeros m hInv pkt c r hc
    have hnorm := normalize_eq (m.eliminate pkt) col hlead
    have hp1col : (m.eliminate pkt).normalize.coding_vector col = 1 := by
      rw [hnorm]
      exact mul_inv_cancel₀ hnz
    have hp1lt : ∀ j : Fin C, j < col →
        (m.eliminate pkt).normalize.coding_vector j = 0 := by
      intro j hj
      rw [hnorm]
      simp [hlt j hj]
    have hp1occ : ∀ c r, m.pivots c = some r →
        (m.eliminate pkt).normalize.coding_vector c = 0 := by
      intro c r hc
      rw [hnorm]
      simp [hoccz c r hc]
    set p1 := (m.eliminate pkt).normalize with hp1
    set m1 : Matrix F C S :=
      ⟨m.data ++ [p1], Function.update m.pivots col (some m.data.length), m.rank⟩
      with hm1
    have hlen1 : m1.data.length - 1 = m.data.length := by
      rw [hm1]
      simp
    have hrow1 : m1.row (m1.data.length - 1) = p1 := by
      rw [hlen1, hm1, Matrix.row]
      show (m.data ++ [p1]).getD m.data.length zeroRPacket = p1
      rw [List.getD_append_right _ _ _ _ (Nat.le_refl _), Nat.sub_self]
      rfl
    have hlead1 : (m1.row (m1.data.length - 1)).leading_coefficient = some col := by
      rw [hrow1]
      exact leading_eq_some_intro p1 col (by rw [hp1col]; exact one_ne_zero) hp1lt
    have hbs := back_substitute_eq m1 (m1.data.length - 1) col hlead1
    rw [hrow1, hlen1] at hbs
    have hback : m1.back_substitute (m1.data.length - 1) =
        m1.back_substitute m.data.length := by
      rw [hlen1]
    have heq2 : (m.push_rref pkt).2 =
        ⟨(m1.back_substitute m.data.length).data,
         (m1.back_substitute m.data.length).pivots,
         (m1.back_substitute m.data.length).rank + 1⟩ := by
      rw [heq, ← hback]
    refine MInv_insert m hInv col p1 hocc hp1col hp1lt hp1occ _ ?_ ?_ ?_
    · rw [heq2, hbs]
    · rw [heq2, hbs]
    · rw [heq2, hbs]


/-! ## Reachability, rank accounting, and claims C2, C3, C4 -/



theorem MInv_new : MInv (Matrix.new : Matrix F C S) := by
  refine ⟨?_, ?_, ?_, ?_, ?_, ?_, ?_⟩
  · intro c r hc
    exact absurd hc (by simp [Matrix.new])
  · intro c c2 r hc _
    exact absurd hc (by simp [Matrix.new])
  · intro r hr
    simp [Matrix.new] at hr
  · intro c r hc
    exact absurd hc (by simp [Matrix.new])
  · intro c r hc
    exact absurd hc (by simp [Matrix.new])
  · intro c r hc
    exact absurd hc (by simp [Matrix.new])
  · rfl

theorem MReach_MInv (m : Matrix F C S) (h : MReach m) : MInv m := by
  induction h with
  | init => exact MInv_new
  | step m p _ ih => exact push_rref_MInv m ih p

theorem MInv_occupied_card (m : Matrix F C S) (hInv : MInv m) :
    (Finset.univ.filter (fun c => (m.pivots c).isSome)).card = m.data.length := by
  have hcard : (Finset.univ.filter (fun c => (m.pivots c).isSome)).card =
      (Finset.range m.data.length).card := by
    apply Finset.card_bij
      (fun c hc => (m.pivots c).get ((Finset.mem_filter.mp hc).2))
    · intro c hc
      have hsome : m.pivots c = some ((m.pivots c).get ((Finset.mem_filter.mp hc).2)) :=
        (Option.some_get ((Finset.mem_filter.mp hc).2)).symm
      exact Finset.mem_range.mpr (hInv.owner_lt c _ hsome)
    · intro c1 hc1 c2 hc2 hget
      have h1 : m.pivots c1 = some ((m.pivots c1).get ((Finset.mem_filter.mp hc1).2)) :=
        (Option.some_get _).symm
      have h2 : m.pivots c2 = some ((m.pivots c2).get ((Finset.mem_filter.mp hc2).2)) :=
        (Option.some_get _).symm
      exact hInv.owner_inj c1 c2 _ h1 (by rw [h2, hget])
    · intro r hr
      obtain ⟨c, hc⟩ := hInv.owner_surj r (Finset.mem_range.mp hr)
      refine ⟨c, Finset.mem_filter.mpr ⟨Finset.mem_univ c, by rw [hc]; rfl⟩, ?_⟩
      simp [hc]
  rw [hcard, Finset.card_range]

theorem MInv_rank_le (m : Matrix F C S) (hInv : MInv m) : m.rank ≤ C := by
  rw [hInv.rank_eq, ← MInv_occupied_card m hInv]
  calc (Finset.univ.filter (fun c => (m.pivots c).isSome)).card
      ≤ Finset.univ.card := Finset.card_filter_le _ _
    _ = C := by simp

theorem back_substitute_rank (m : Matrix F C S) (idx : Nat) :
    (m.back_substitute idx).rank = m.rank := by
  simp only [Matrix.back_substitute]
  split <;> rfl

theorem back_substitute_pivots (m : Matrix F C S) (idx : Nat) :
    (m.back_substitute idx).pivots = m.pivots := by
  simp only [Matrix.back_substitute]
  split <;> rfl

theorem decoderDecode_state (toB : F → List Nat) (m : Matrix F C S)
    (p : RLNCPacket F C S) :
    (decoderDecode toB m p).2 = (m.push_rref p).2 := by
  simp only [decoderDecode]
  split
  · split <;> rfl
  · rfl

theorem push_rref_rank_ge (m : Matrix F C S) (p : RLNCPacket F C S) :
    m.rank ≤ (m.push_rref p).2.rank := by
  rcases push_rref_spec m p with ⟨hm, _, _⟩ | ⟨col, _, _, heq⟩
  · rw [hm]
  · have heq2 : (m.push_rref p).2.rank =
        ((⟨m.data ++ [(m.eliminate p).normalize],
           Function.update m.pivots col (some m.data.length),
           m.rank⟩ : Matrix F C S).back_substitute
          ((m.data ++ [(m.eliminate p).normalize]).length - 1)).rank + 1 := by
      rw [heq]
    rw [heq2, back_substitute_rank]
    exact Nat.le_succ m.rank

/-- C2: after every decode call on a reachable decoder, every stored row is
normalized with its leading column held by the pivot table pointing back to
it, all other rows vanish on occupied pivot columns (reduced form), and the
rank equals the number of occupied pivot entries. -/
theorem decoder_rref_invariant (m : Matrix F C S) (h : MReach m) :
    (∀ r, r < m.data.length → ∃ c : Fin C,
        (m.row r).leading_coefficient = some c ∧
        (m.row r).coding_vector c = 1 ∧ m.pivots c = some r) ∧
    (∀ c r, m.pivots c = some r → ∀ r2, r2 < m.data.length → r2 ≠ r →
        (m.row r2).coding_vector c = 0) ∧
    m.rank = (Finset.univ.filter (fun c => (m.pivots c).isSome)).card := by
  have hInv := MReach_MInv m h
  refine ⟨?_, ?_, ?_⟩
  · intro r hr
    obtain ⟨c, hc⟩ := hInv.owner_surj r hr
    refine ⟨c, ?_, hInv.pivot_one c r hc, hc⟩
    exact leading_eq_some_intro _ c
      (by rw [hInv.pivot_one c r hc]; exact one_ne_zero)
      (fun j hj => hInv.pivot_lead c r hc j hj)
  · exact fun c r hc r2 hr2 hner => hInv.reduced c r hc r2 hr2 hner
  · rw [MInv_occupied_card m hInv, hInv.rank_eq]

/-- Witness for C2 at the concrete reachable state obtained by feeding one
packet over the 257-element field. -/
theorem decoder_rref_invariant_witness :
    (∀ r, r < ((Matrix.new.push_rref
        (⟨![1, 2], ![3, 4]⟩ : RLNCPacket F257 2 2)).2).data.length →
      ∃ c : Fin 2,
        (((Matrix.new.push_rref (⟨![1, 2], ![3, 4]⟩ : RLNCPacket F257 2 2)).2).row
            r).leading_coefficient = some c ∧
        (((Matrix.new.push_rref (⟨![1, 2], ![3, 4]⟩ : RLNCPacket F257 2 2)).2).row
            r).coding_vector c = 1 ∧
        ((Matrix.new.push_rref (⟨![1, 2], ![3, 4]⟩ : RLNCPacket F257 2 2)).2).pivots c =
          some r) ∧
    (∀ c r,
      ((Matrix.new.push_rref (⟨![1, 2], ![3, 4]⟩ : RLNCPacket F257 2 2)).2).pivots c =
          some r →
      ∀ r2, r2 < ((Matrix.new.push_rref
          (⟨![1, 2], ![3, 4]⟩ : RLNCPacket F257 2 2)).2).data.length → r2 ≠ r →
        (((Matrix.new.push_rref (⟨![1, 2], ![3, 4]⟩ : RLNCPacket F257 2 2)).2).row
            r2).coding_vector c = 0) ∧
    ((Matrix.new.push_rref (⟨![1, 2], ![3, 4]⟩ : RLNCPacket F257 2 2)).2).rank =
      (Finset.univ.filter (fun c =>
        (((Matrix.new.push_rref (⟨![1, 2], ![3, 4]⟩ : RLNCPacket F257 2 2)).2).pivots
            c).isSome)).card :=
  decoder_rref_invariant _ (MReach.step _ _ MReach.init)

/-- C3: on reachable states, the multiplicative inverses taken inside
elimination are applied to the (non-zero, in fact unit) pivot coefficients,
and normalization inverts only a non-zero leading coefficient; neither
`invert` call can yield `none`. -/
theorem inverses_applied_to_nonzero (m : Matrix F C S) (h : MReach m) :
    (∀ cr ∈ m.pivotList, (m.row cr.2).coding_vector cr.1 ≠ 0 ∧
        invert ((m.row cr.2).coding_vector cr.1) ≠ none) ∧
    (∀ p : RLNCPacket F C S, ∀ c, p.leading_coefficient = some c →
        p.coding_vector c ≠ 0 ∧ invert (p.coding_vector c) ≠ none) := by
  have hInv := MReach_MInv m h
  constructor
  · intro cr hcr
    have hc : m.pivots cr.1 = some cr.2 :=
      (mem_pivotList_iff m cr.1 cr.2).mp (by cases cr; exact hcr)
    have hone := hInv.pivot_one cr.1 cr.2 hc
    refine ⟨by rw [hone]; exact one_ne_zero, ?_⟩
    rw [invert, if_neg (by rw [hone]; exact one_ne_zero)]
    simp
  · intro p c hc
    have hnz := (leading_some_spec p c hc).1
    refine ⟨hnz, ?_⟩
    rw [invert, if_neg hnz]
    simp

/-- Witness for C3 at a concrete packet whose leading coefficient sits in
column zero. -/
theorem inverses_applied_to_nonzero_witness :
    (⟨![1, 2], ![3, 4]⟩ : RLNCPacket F257 2 2).coding_vector 0 ≠ 0 ∧
    invert ((⟨![1, 2], ![3, 4]⟩ : RLNCPacket F257 2 2).coding_vector 0) ≠ none :=
  (inverses_applied_to_nonzero (Matrix.new : Matrix F257 2 2) MReach.init).2
    ⟨![1, 2], ![3, 4]⟩ 0 (by decide)

/-- C4: across any decode call on a reachable decoder, the rank never
decreases and never exceeds the generation size `C`. -/
theorem rank_monotone_bounded (toB : F → List Nat) (m : Matrix F C S)
    (h : MReach m) (p : RLNCPacket F C S) :
    m.rank ≤ (decoderDecode toB m p).2.rank ∧
    (decoderDecode toB m p).2.rank ≤ C := by
  rw [decoderDecode_state]
  exact ⟨push_rref_rank_ge m p,
    MInv_rank_le _ (push_rref_MInv m (MReach_MInv m h) p)⟩

/-- Witness for C4: one concrete decode call from the fresh decoder. -/
theorem rank_monotone_bounded_witness :
    (Matrix.new : Matrix F257 2 2).rank ≤
      (decoderDecode toB257 Matrix.new (⟨![1, 2], ![3, 4]⟩ : RLNCPacket F257 2 2)).2.rank ∧
    (decoderDecode toB257 Matrix.new (⟨![1, 2], ![3, 4]⟩ : RLNCPacket F257 2 2)).2.rank ≤ 2 :=
  rank_monotone_bounded toB257 Matrix.new MReach.init _


/-! ## Row-space tracking and the duplicate-feed claim C5 -/



theorem CombOffset_refl (m : Matrix F C S) (p : RLNCPacket F C S) :
    CombOffset m p p :=
  ⟨fun _ => 0, fun c => by simp, fun j => by simp⟩

theorem CombOffset_subtract (m : Matrix F C S) (p q : RLNCPacket F C S)
    (h : CombOffset m p q) (r : Nat) (hr : r < m.data.length) (f : F) :
    CombOffset m p (q.subtract_row (m.row r) f) := by
  obtain ⟨g, hcv, hdata⟩ := h
  refine ⟨fun i => g i + (if i = r then f else 0), ?_, ?_⟩
  · intro c
    simp only [RLNCPacket.subtract_row]
    rw [hcv c]
    have hsplit : ∑ i ∈ Finset.range m.data.length,
        (g i + if i = r then f else 0) * (m.row i).coding_vector c =
        (∑ i ∈ Finset.range m.data.length, g i * (m.row i).coding_vector c) +
          f * (m.row r).coding_vector c := by
      rw [Finset.sum_congr rfl (fun i _ => add_mul (g i) _ _),
        Finset.sum_add_distrib]
      congr 1
      rw [Finset.sum_congr rfl (fun i _ => ite_mul (i = r) f 0 _)]
      simp only [zero_mul]
      rw [Finset.sum_ite_eq' (Finset.range m.data.length) r
          (fun i => f * (m.row i).coding_vector c)]
      simp [Finset.mem_range.mpr hr]
    rw [hsplit]
    ring
  · intro j
    simp only [RLNCPacket.subtract_row]
    rw [hdata j]
    have hsplit : ∑ i ∈ Finset.range m.data.length,
        (g i + if i = r then f else 0) * (m.row i).data j =
        (∑ i ∈ Finset.range m.data.length, g i * (m.row i).data j) +
          f * (m.row r).data j := by
      rw [Finset.sum_congr rfl (fun i _ => add_mul (g i) _ _),
        Finset.sum_add_distrib]
      congr 1
      rw [Finset.sum_congr rfl (fun i _ => ite_mul (i = r) f 0 _)]
      simp only [zero_mul]
      rw [Finset.sum_ite_eq' (Finset.range m.data.length) r
          (fun i => f * (m.row i).data j)]
      simp [Finset.mem_range.mpr hr]
    rw [hsplit]
    ring

theorem eliminate_CombOffset (m : Matrix F C S) (hInv : MInv m)
    (p : RLNCPacket F C S) : CombOffset m p (m.eliminate p) := by
  unfold Matrix.eliminate
  have hgen : ∀ x ∈ m.pivotList, m.pivots x.1 = some x.2 :=
    fun x hx => (mem_pivotList_iff m x.1 x.2).mp (by cases x; exact hx)
  have : ∀ (L : List (Fin C × Nat)) (q : RLNCPacket F C S),
      (∀ x ∈ L, m.pivots x.1 = some x.2) → CombOffset m p q →
      CombOffset m p (L.foldl (fun q cr =>
        let coeff := q.coding_vector cr.1
        if coeff = 0 then q
        else q.subtract_row (m.row cr.2)
          (coeff * ((invert ((m.row cr.2).coding_vector cr.1)).getD 0))) q) := by
    intro L
    induction L with
    | nil => exact fun q _ hq => hq
    | cons x L ih =>
      intro q hL hq
      simp only [List.foldl_cons]
      refine ih _ (fun y hy => hL y (List.mem_cons_of_mem x hy)) ?_
      by_cases hz : q.coding_vector x.1 = 0
      · rw [if_pos hz]
        exact hq
      · rw [if_neg hz]
        exact CombOffset_subtract m p q hq x.2
          (hInv.owner_lt x.1 x.2 (hL x (List.mem_cons_self x L))) _
  exact this m.pivotList p hgen (CombOffset_refl m p)

theorem span_eval_at_pivot (m : Matrix F C S) (hInv : MInv m) (k : Nat → F)
    (i : Nat) (c : Fin C) (hc : m.pivots c = some i) :
    (∑ t ∈ Finset.range m.data.length, k t * (m.row t).coding_vector c) = k i := by
  have hi : i < m.data.length := hInv.owner_lt c i hc
  rw [Finset.sum_eq_single_of_mem i (Finset.mem_range.mpr hi)]
  · rw [hInv.pivot_one c i hc, mul_one]
  · intro t ht htne
    rw [hInv.reduced c i hc t (Finset.mem_range.mp ht) htne, mul_zero]

/-- A packet already in the row space eliminates to an all-zero coding
vector. -/
theorem InSpan_eliminate_zero (m : Matrix F C S) (hInv : MInv m)
    (p : RLNCPacket F C S) (hsp : InSpan m.data p) :
    ∀ c, (m.eliminate p).coding_vector c = 0 := by
  obtain ⟨g, hg, _⟩ := hsp
  obtain ⟨h, hh, _⟩ := eliminate_CombOffset m hInv p
  have hq : ∀ c, (m.eliminate p).coding_vector c =
      ∑ i ∈ Finset.range m.data.length,
        (g i - h i) * (m.row i).coding_vector c := by
    intro c
    rw [hh c, hg c, ← Finset.sum_sub_distrib]
    exact Finset.sum_congr rfl (fun i _ => by rw [sub_mul]; rfl)
  have hk : ∀ i, i < m.data.length → g i - h i = 0 := by
    intro i hi
    obtain ⟨c, hc⟩ := hInv.owner_surj i hi
    have h0 : (m.eliminate p).coding_vector c = 0 :=
      eliminate_zeros m hInv p c i hc
    rw [hq c, span_eval_at_pivot m hInv _ i c hc] at h0
    exact h0
  intro c
  rw [hq c]
  exact Finset.sum_eq_zero (fun i hi => by
    rw [hk i (Finset.mem_range.mp hi), zero_mul])





theorem insert_rows_spec (m : Matrix F C S) (col : Fin C)
    (p1 : RLNCPacket F C S) (mr : Matrix F C S)
    (hdata : mr.data = mapIdxAux (fun i rowi =>
        if i < m.data.length then
          (if rowi.coding_vector col = 0 then rowi
           else rowi.subtract_row p1 (rowi.coding_vector col))
        else rowi) 0 (m.data ++ [p1])) :
    mr.data.length = m.data.length + 1 ∧
    (∀ r, r < m.data.length → ∀ c, (mr.row r).coding_vector c =
        (m.row r).coding_vector c - (m.row r).coding_vector col * p1.coding_vector c) ∧
    (∀ r, r < m.data.length → ∀ j, (mr.row r).data j =
        (m.row r).data j - (m.row r).coding_vector col * p1.data j) ∧
    mr.row m.data.length = p1 := by
  have hlen : mr.data.length = m.data.length + 1 := by
    rw [hdata, mapIdxAux_length]
    simp
  have hrowlt : ∀ r, r < m.data.length → mr.row r =
      (if (m.row r).coding_vector col = 0 then m.row r
       else (m.row r).subtract_row p1 ((m.row r).coding_vector col)) := by
    intro r hr
    rw [Matrix.row, hdata,
      mapIdxAux_getD _ 0 _ _ _ (by simp; omega), Nat.zero_add, if_pos hr,
      List.getD_append _ _ _ _ hr]
    rfl
  refine ⟨hlen, ?_, ?_, ?_⟩
  · intro r hr c
    rw [hrowlt r hr]
    by_cases hz : (m.row r).coding_vector col = 0
    · rw [if_pos hz, hz]
      ring
    · rw [if_neg hz]
      rfl
  · intro r hr j
    rw [hrowlt r hr]
    by_cases hz : (m.row r).coding_vector col = 0
    · rw [if_pos hz, hz]
      ring
    · rw [if_neg hz]
      rfl
  · rw [Matrix.row, hdata,
      mapIdxAux_getD _ 0 _ _ _ (by simp), Nat.zero_add, if_neg (by omega),
      List.getD_append_right _ _ _ _ (Nat.le_refl _), Nat.sub_self]
    rfl

/-- After an insertion (with back-substitution), the fed packet lies in the
row space of the new buffer. -/
theorem insert_InSpan (m : Matrix F C S) (col : Fin C)
    (pe p1 : RLNCPacket F C S) (kk : F)
    (hpe_cv : ∀ c, pe.coding_vector c = kk * p1.coding_vector c)
    (hpe_data : ∀ j, pe.data j = kk * p1.data j)
    (p : RLNCPacket F C S) (hoff : CombOffset m p pe)
    (mr : Matrix F C S)
    (hdata : mr.data = mapIdxAux (fun i rowi =>
        if i < m.data.length then
          (if rowi.coding_vector col = 0 then rowi
           else rowi.subtract_row p1 (rowi.coding_vector col))
        else rowi) 0 (m.data ++ [p1])) :
    InSpan mr.data p := by
  obtain ⟨hlen, hcv, hdta, hrowN⟩ := insert_rows_spec m col p1 mr hdata
  obtain ⟨h, hh_cv, hh_data⟩ := hoff
  refine ⟨fun t => if t < m.data.length then h t
      else kk + ∑ i ∈ Finset.range m.data.length, h i * (m.row i).coding_vector col,
      ?_, ?_⟩
  · intro c
    rw [hlen, Finset.sum_range_succ]
    simp only []
    rw [if_neg (show ¬ m.data.length < m.data.length by omega)]
    have hN : mr.data.getD m.data.length zeroRPacket = p1 := hrowN
    rw [hN]
    have hmain : ∑ i ∈ Finset.range m.data.length,
        (if i < m.data.length then h i
         else kk + ∑ i ∈ Finset.range m.data.length,
            h i * (m.row i).coding_vector col) *
          (mr.data.getD i zeroRPacket).coding_vector c =
        (∑ i ∈ Finset.range m.data.length, h i * (m.row i).coding_vector c) -
          (∑ i ∈ Finset.range m.data.length, h i * (m.row i).coding_vector col) *
            p1.coding_vector c := by
      rw [Finset.sum_mul, ← Finset.sum_sub_distrib]
      refine Finset.sum_congr rfl (fun i hi => ?_)
      have hilt := Finset.mem_range.mp hi
      rw [if_pos hilt]
      have hget : mr.data.getD i zeroRPacket = mr.row i := rfl
      rw [hget, hcv i hilt]
      ring
    rw [hmain]
    have hp : p.coding_vector c = pe.coding_vector c +
        ∑ i ∈ Finset.range m.data.length, h i * (m.row i).coding_vector c := by
      rw [hh_cv c]
      ring
    rw [hp, hpe_cv c]
    ring
  · intro j
    rw [hlen, Finset.sum_range_succ]
    simp only []
    rw [if_neg (show ¬ m.data.length < m.data.length by omega)]
    have hN : mr.data.getD m.data.length zeroRPacket = p1 := hrowN
    rw [hN]
    have hmain : ∑ i ∈ Finset.range m.data.length,
        (if i < m.data.length then h i
         else kk + ∑ i ∈ Finset.range m.data.length,
            h i * (m.row i).coding_vector col) *
          (mr.data.getD i zeroRPacket).data j =
        (∑ i ∈ Finset.range m.data.length, h i * (m.row i).data j) -
          (∑ i ∈ Finset.range m.data.length, h i * (m.row i).coding_vector col) *
            p1.data j := by
      rw [Finset.sum_mul, ← Finset.sum_sub_distrib]
      refine Finset.sum_congr rfl (fun i hi => ?_)
      have hilt := Finset.mem_range.mp hi
      rw [if_pos hilt]
      have hget : mr.data.getD i zeroRPacket = mr.row i := rfl
      rw [hget, hdta i hilt]
      ring
    rw [hmain]
    have hp : p.data j = pe.data j +
        ∑ i ∈ Finset.range m.data.length, h i * (m.row i).data j := by
      rw [hh_data j]
      ring
    rw [hp, hpe_data j]
    ring





theorem push_rref_insert_result (m : Matrix F C S) (p : RLNCPacket F C S)
    (col : Fin C) (hlead : (m.eliminate p).leading_coefficient = some col)
    (hocc : m.pivots col = none) :
    (m.push_rref p).2.data = mapIdxAux (fun i rowi =>
        if i < m.data.length then
          (if rowi.coding_vector col = 0 then rowi
           else rowi.subtract_row (m.eliminate p).normalize (rowi.coding_vector col))
        else rowi) 0 (m.data ++ [(m.eliminate p).normalize]) ∧
    (m.push_rref p).2.pivots = Function.update m.pivots col (some m.data.length) ∧
    (m.push_rref p).2.rank = m.rank + 1 := by
  rcases push_rref_spec m p with ⟨_, _, hnever⟩ | ⟨col2, hlead2, hocc2, heq⟩
  · exact absurd hocc (hnever col hlead)
  · have hcol : col2 = col := by
      rw [hlead] at hlead2
      injection hlead2 with h2
      exact h2.symm
    subst hcol
    have hnz : (m.eliminate p).coding_vector col2 ≠ 0 :=
      (leading_some_spec _ col2 hlead).1
    have hnorm := normalize_eq (m.eliminate p) col2 hlead
    have hp1col : (m.eliminate p).normalize.coding_vector col2 = 1 := by
      rw [hnorm]
      exact mul_inv_cancel₀ hnz
    have hp1lt : ∀ j : Fin C, j < col2 →
        (m.eliminate p).normalize.coding_vector j = 0 := by
      intro j hj
      rw [hnorm]
      simp [(leading_some_spec _ col2 hlead).2 j hj]
    set p1 := (m.eliminate p).normalize with hp1
    set m1 : Matrix F C S :=
      ⟨m.data ++ [p1], Function.update m.pivots col2 (some m.data.length), m.rank⟩
      with hm1
    have hlen1 : m1.data.length - 1 = m.data.length := by
      rw [hm1]
      simp
    have hrow1 : m1.row (m1.data.length - 1) = p1 := by
      rw [hlen1, hm1, Matrix.row]
      show (m.data ++ [p1]).getD m.data.length zeroRPacket = p1
      rw [List.getD_append_right _ _ _ _ (Nat.le_refl _), Nat.sub_self]
      rfl
    have hlead1 : (m1.row (m1.data.length - 1)).leading_coefficient = some col2 := by
      rw [hrow1]
      exact leading_eq_some_intro p1 col2 (by rw [hp1col]; exact one_ne_zero) hp1lt
    have hbs := back_substitute_eq m1 (m1.data.length - 1) col2 hlead1
    rw [hrow1, hlen1] at hbs
    have hback : m1.back_substitute (m1.data.length - 1) =
        m1.back_substitute m.data.length := by
      rw [hlen1]
    have heq2 : (m.push_rref p).2 =
        ⟨(m1.back_substitute m.data.length).data,
         (m1.back_substitute m.data.length).pivots,
         (m1.back_substitute m.data.length).rank + 1⟩ := by
      rw [heq, ← hback]
    refine ⟨?_, ?_, ?_⟩
    · rw [heq2, hbs]
    · rw [heq2, hbs]
    · rw [heq2, hbs]

theorem decoderDecode_out_false (toB : F → List Nat) (m : Matrix F C S)
    (p : RLNCPacket F C S) (hf : (m.push_rref p).1 = false) :
    (decoderDecode toB m p).1 = .ok none := by
  simp only [decoderDecode, hf]
  rfl

/-- C5 (amended): for the generic decoder, feeding the same coded packet
twice from any reachable state yields `Some` at most once: the second feed
returns `None` and leaves the decoder state (in particular its rank)
unchanged. -/
theorem duplicate_feed_generic (toB : F → List Nat) (m : Matrix F C S)
    (h : MReach m) (p : RLNCPacket F C S) :
    (decoderDecode toB (decoderDecode toB m p).2 p).1 = .ok none ∧
    (decoderDecode toB (decoderDecode toB m p).2 p).2 = (decoderDecode toB m p).2 ∧
    (decoderDecode toB (decoderDecode toB m p).2 p).2.rank =
      (decoderDecode toB m p).2.rank := by
  have hInv := MReach_MInv m h
  have hInv1 : MInv (m.push_rref p).2 := push_rref_MInv m hInv p
  have hstate1 : (decoderDecode toB m p).2 = (m.push_rref p).2 :=
    decoderDecode_state toB m p
  have hreject : ((m.push_rref p).2.push_rref p).1 = false ∧
      ((m.push_rref p).2.push_rref p).2 = (m.push_rref p).2 := by
    rcases push_rref_spec m p with ⟨hm, hf, _⟩ | ⟨col, hlead, hocc, _⟩
    · rw [hm]
      exact ⟨hf, hm⟩
    · have hnz : (m.eliminate p).coding_vector col ≠ 0 :=
        (leading_some_spec _ col hlead).1
      have hnorm := normalize_eq (m.eliminate p) col hlead
      have hpe_cv : ∀ c, (m.eliminate p).coding_vector c =
          (m.eliminate p).coding_vector col *
            (m.eliminate p).normalize.coding_vector c := by
        intro c
        rw [hnorm]
        show (m.eliminate p).coding_vector c = _ * ((m.eliminate p).coding_vector c *
          ((m.eliminate p).coding_vector col)⁻¹)
        rw [mul_comm ((m.eliminate p).coding_vector c), ← mul_assoc,
          mul_inv_cancel₀ hnz, one_mul]
      have hpe_data : ∀ j, (m.eliminate p).data j =
          (m.eliminate p).coding_vector col *
            (m.eliminate p).normalize.data j := by
        intro j
        rw [hnorm]
        show (m.eliminate p).data j = _ * ((m.eliminate p).data j *
          ((m.eliminate p).coding_vector col)⁻¹)
        rw [mul_comm ((m.eliminate p).data j), ← mul_assoc,
          mul_inv_cancel₀ hnz, one_mul]
      obtain ⟨hdata, _, _⟩ := push_rref_insert_result m p col hlead hocc
      have hsp : InSpan (m.push_rref p).2.data p :=
        insert_InSpan m col (m.eliminate p) (m.eliminate p).normalize
          ((m.eliminate p).coding_vector col) hpe_cv hpe_data p
          (eliminate_CombOffset m hInv p) _ hdata
      have hz := InSpan_eliminate_zero _ hInv1 p hsp
      rcases push_rref_spec (m.push_rref p).2 p with ⟨hm2, hf2, _⟩ |
        ⟨col2, hlead2, _, _⟩
      · exact ⟨hf2, hm2⟩
      · exact absurd (hz col2) (by
          have := (leading_some_spec _ col2 hlead2).1
          exact this)
  refine ⟨?_, ?_, ?_⟩
  · rw [hstate1]
    exact decoderDecode_out_false toB _ p hreject.1
  · rw [hstate1, decoderDecode_state]
    exact hreject.2
  · rw [hstate1, decoderDecode_state]
    rw [hreject.2]

/-- Witness for the amended C5: a concrete duplicate feed over the
257-element field from the fresh decoder. -/
theorem duplicate_feed_generic_witness :
    (decoderDecode toB257 (decoderDecode toB257 (Matrix.new : Matrix F257 2 2)
        ⟨![1, 2], ![3, 4]⟩).2 ⟨![1, 2], ![3, 4]⟩).1 = .ok none ∧
    (decoderDecode toB257 (decoderDecode toB257 (Matrix.new : Matrix F257 2 2)
        ⟨![1, 2], ![3, 4]⟩).2 ⟨![1, 2], ![3, 4]⟩).2 =
      (decoderDecode toB257 (Matrix.new : Matrix F257 2 2) ⟨![1, 2], ![3, 4]⟩).2 ∧
    (decoderDecode toB257 (decoderDecode toB257 (Matrix.new : Matrix F257 2 2)
        ⟨![1, 2], ![3, 4]⟩).2 ⟨![1, 2], ![3, 4]⟩).2.rank =
      (decoderDecode toB257 (Matrix.new : Matrix F257 2 2) ⟨![1, 2], ![3, 4]⟩).2.rank :=
  duplicate_feed_generic toB257 Matrix.new MReach.init ⟨![1, 2], ![3, 4]⟩


/-! ## The parallel reduction path (claim C7) -/



theorem foldl_op_assoc {α : Type} (op : α → α → α)
    (hassoc : ∀ a b c, op (op a b) c = op a (op b c)) :
    ∀ (xs : List α) (a b : α), xs.foldl op (op a b) = op a (xs.foldl op b) := by
  intro xs
  induction xs with
  | nil => intro a b; rfl
  | cons x xs ih =>
    intro a b
    simp only [List.foldl_cons]
    rw [hassoc a b x, ih a (op b x)]

theorem RTree.eval_eq_foldl {α : Type} (idv : α) (op : α → α → α)
    (hassoc : ∀ a b c, op (op a b) c = op a (op b c))
    (hidl : ∀ a, op idv a = a) (hidr : ∀ a, op a idv = a) :
    ∀ t : RTree α, t.eval idv op = t.flat.foldl op idv := by
  intro t
  induction t with
  | leafId => rfl
  | leaf a =>
    simp only [RTree.eval, RTree.flat, List.foldl_cons, List.foldl_nil]
    rw [hidl a]
  | node l r ihl ihr =>
    simp only [RTree.eval, RTree.flat, List.foldl_append]
    rw [ihl, ihr]
    conv_rhs => rw [← hidr (List.foldl op idv l.flat)]
    rw [foldl_op_assoc op hassoc]

theorem vadd_assoc (a b c : Fin S → F) : vadd (vadd a b) c = vadd a (vadd b c) := by
  funext j
  simp [vadd, add_assoc]

theorem vadd_zero_left (a : Fin S → F) : vadd vzero a = a := by
  funext j
  simp [vadd, vzero]

theorem vadd_zero_right (a : Fin S → F) : vadd a vzero = a := by
  funext j
  simp [vadd, vzero]

theorem encodeInner_eq_foldl (chunks : Fin C → Fin S → F) (cv : Fin C → F) :
    encodeInner chunks cv = (parContribs chunks cv).foldl vadd vzero := by
  unfold encodeInner parContribs
  have hgen : ∀ (l : List (Fin C)) (acc : Fin S → F),
      l.foldl (fun result i =>
        if cv i = 0 then result
        else fun j => result j + chunks i j * cv i) acc =
      (l.filterMap (fun i =>
        if cv i = 0 then none
        else some (fun j => chunks i j * cv i))).foldl vadd acc := by
    intro l
    induction l with
    | nil => intro acc; rfl
    | cons i l ih =>
      intro acc
      simp only [List.foldl_cons, List.filterMap_cons]
      by_cases hz : cv i = 0
      · rw [if_pos hz, if_pos hz]
        exact ih acc
      · rw [if_neg hz, if_neg hz]
        rw [ih]
        rfl
  exact hgen (List.finRange C) (fun _ => 0)

/-- C7: any reduction shape of the parallel path (ordered per-chunk
contributions with zero coefficients skipped, combined by elementwise
addition with identity padding) computes a data vector elementwise equal to
the sequential `encode_inner`. -/
theorem parallel_encode_eq (chunks : Fin C → Fin S → F) (cv : Fin C → F)
    (t : RTree (Fin S → F)) (hflat : t.flat = parContribs chunks cv) :
    ∀ j, t.eval vzero vadd j = encodeInner chunks cv j := by
  intro j
  rw [RTree.eval_eq_foldl vzero vadd vadd_assoc vadd_zero_left vadd_zero_right t,
    hflat, encodeInner_eq_foldl chunks cv]

/-- Witness for C7: a two-chunk reduction shape with an identity leaf. -/
theorem parallel_encode_eq_witness :
    (RTree.node (RTree.leaf (fun j => (![![2], ![3]] : Fin 2 → Fin 1 → F257) 0 j *
          (![1, 1] : Fin 2 → F257) 0))
        (RTree.node RTree.leafId
          (RTree.leaf (fun j => (![![2], ![3]] : Fin 2 → Fin 1 → F257) 1 j *
            (![1, 1] : Fin 2 → F257) 1)))).eval vzero vadd 0 =
      encodeInner (![![2], ![3]] : Fin 2 → Fin 1 → F257) (![1, 1] : Fin 2 → F257) 0 :=
  parallel_encode_eq (![![2], ![3]]) (![1, 1]) _ (by decide) 0

/-! ## GF(2^8) decoder invariant and post-completion behavior -/


theorem getD_mem_of_lt {α : Type} (l : List α) (n : Nat) (d : α)
    (h : n < l.length) : l.getD n d ∈ l := by
  rw [List.getD_eq_getElem?_getD, List.getElem?_eq_getElem h]
  exact List.getElem_mem h

theorem getD_set_self {α : Type} (l : List α) (i : Nat) (v d : α)
    (h : i < l.length) : (l.set i v).getD i d = v := by
  induction l generalizing i with
  | nil => simp at h
  | cons a as ih =>
    cases i with
    | zero => rfl
    | succ j => exact ih j (by simpa using h)

theorem getD_set_ne {α : Type} (l : List α) (i j : Nat) (v d : α)
    (h : i ≠ j) : (l.set i v).getD j d = l.getD j d := by
  induction l generalizing i j with
  | nil => simp [List.set]
  | cons a as ih =>
    cases i with
    | zero =>
      cases j with
      | zero => exact absurd rfl h
      | succ k => rfl
    | succ i2 =>
      cases j with
      | zero => rfl
      | succ k => exact ih i2 k (by omega)

theorem getD_replicate {α : Type} (n i : Nat) (a d : α) :
    (List.replicate n a).getD i d = if i < n then a else d := by
  induction n generalizing i with
  | zero => simp
  | succ n ih =>
    cases i with
    | zero => simp [List.replicate]
    | succ j =>
      simp only [List.replicate, List.getD_cons_succ, ih]
      by_cases hj : j < n
      · rw [if_pos hj, if_pos (by omega)]
      · rw [if_neg hj, if_neg (by omega)]

theorem filter_isSome_set_some (l : List (Option Nat)) (i v : Nat)
    (hi : i < l.length) (hnone : l.getD i none = none) :
    ((l.set i (some v)).filter (fun o => o.isSome)).length =
      (l.filter (fun o => o.isSome)).length + 1 := by
  induction l generalizing i with
  | nil => simp at hi
  | cons a as ih =>
    cases i with
    | zero =>
      have ha : a = none := hnone
      rw [ha]
      simp [List.set, List.filter_cons]
    | succ j =>
      have hj : j < as.length := by simpa using hi
      have hnone2 : as.getD j none = none := hnone
      have hih := ih j hj hnone2
      show ((a :: as.set j (some v)).filter (fun o => o.isSome)).length =
        ((a :: as).filter (fun o => o.isSome)).length + 1
      by_cases hsome : a.isSome
      · simp [List.filter_cons, hsome, hih]
      · simp [List.filter_cons, hsome, hih]

theorem mapIdxAux_mem {α : Type} (f : Nat → α → α) :
    ∀ (n : Nat) (l : List α) (x : α), x ∈ mapIdxAux f n l →
      ∃ i a, a ∈ l ∧ x = f i a := by
  intro n l
  induction l generalizing n with
  | nil => intro x hx; simp [mapIdxAux] at hx
  | cons b bs ih =>
    intro x hx
    simp only [mapIdxAux, List.mem_cons] at hx
    rcases hx with hx | hx
    · exact ⟨n, b, List.mem_cons_self b bs, hx⟩
    · obtain ⟨i, a, ha, hfa⟩ := ih (n + 1) x hx
      exact ⟨i, a, List.mem_cons_of_mem b ha, hfa⟩

theorem gfLeadingAux_lt :
    ∀ (l : List GF256) (i c : Nat) (v : GF256),
      gfLeadingAux l i = some (c, v) → c < i + l.length := by
  intro l
  induction l with
  | nil => intro i c v h; simp [gfLeadingAux] at h
  | cons a as ih =>
    intro i c v h
    simp only [gfLeadingAux] at h
    split at h
    · injection h with h1
      injection h1 with hc hv
      simp [← hc]
    · have := ih (i + 1) c v h
      simp only [List.length_cons]
      omega

end RLNC

namespace RLNC

theorem gfPivotList_mem (d : GFDecoder) (c r : Nat)
    (h : (c, r) ∈ d.pivotList) : d.pivot_rows.getD c none = some r := by
  unfold GFDecoder.pivotList at h
  obtain ⟨ir, hir, hmap⟩ := List.mem_filterMap.mp (List.take_subset _ _ h)
  cases ho : ir.2 with
  | none => rw [ho] at hmap; exact absurd hmap (by simp)
  | some r2 =>
    rw [ho] at hmap
    simp only [Option.map_some'] at hmap
    injection hmap with h1
    injection h1 with hc hr
    obtain ⟨_, _, hget⟩ := enumAux_mem 0 d.pivot_rows ir.1 ir.2 none hir
    rw [Nat.sub_zero] at hget
    rw [← hc, hget, ho, hr]

theorem gfSubtractRow_cv_length (dst src : GFPacket) (f : GF256) :
    (gfSubtractRow dst src f).coding_vector.length =
      min dst.coding_vector.length src.coding_vector.length := by
  simp [gfSubtractRow]

theorem gfEliminate_cv_length (d : GFDecoder)
    (hlt : ∀ i r, d.pivot_rows.getD i none = some r → r < d.data.length)
    (hrows : ∀ row ∈ d.data, row.coding_vector.length = d.generation_size)
    (p : GFPacket) (hp : p.coding_vector.length = d.generation_size) :
    (gfEliminate d p).coding_vector.length = d.generation_size := by
  unfold gfEliminate
  have hgen : ∀ x ∈ d.pivotList, d.pivot_rows.getD x.1 none = some x.2 :=
    fun x hx => gfPivotList_mem d x.1 x.2 (by cases x; exact hx)
  have hfold : ∀ (L : List (Nat × Nat)) (q : GFPacket),
      (∀ x ∈ L, d.pivot_rows.getD x.1 none = some x.2) →
      q.coding_vector.length = d.generation_size →
      ((L.foldl (fun q cr =>
        let coeff := q.coding_vector.getD cr.1 0
        if coeff ≠ 0 then
          let pivot_row := d.data.getD cr.2 ⟨[], []⟩
          let pivot_coeff := pivot_row.coding_vector.getD cr.1 0
          match gfDiv coeff pivot_coeff with
          | some factor => gfSubtractRow q pivot_row factor
          | none => q
        else q) q).coding_vector.length) = d.generation_size := by
    intro L
    induction L with
    | nil => exact fun q _ hq => hq
    | cons x L ih =>
      intro q hL hq
      simp only [List.foldl_cons]
      refine ih _ (fun y hy => hL y (List.mem_cons_of_mem x hy)) ?_
      have hx := hL x (List.mem_cons_self x L)
      have hrlt := hlt x.1 x.2 hx
      have hrowmem : d.data.getD x.2 ⟨[], []⟩ ∈ d.data :=
        getD_mem_of_lt d.data x.2 ⟨[], []⟩ hrlt
      have hrowlen := hrows _ hrowmem
      by_cases hz : q.coding_vector.getD x.1 0 ≠ 0
      · rw [if_pos hz]
        cases hdiv : gfDiv (q.coding_vector.getD x.1 0)
            ((d.data.getD x.2 ⟨[], []⟩).coding_vector.getD x.1 0) with
        | some factor =>
          simp only [hdiv]
          rw [gfSubtractRow_cv_length, hq, hrowlen]
          simp
        | none => simp only [hdiv]; exact hq
      · rw [if_neg hz]
        exact hq
  exact hfold d.pivotList p hgen hp

theorem gfBackSubstitute_fields (d : GFDecoder) (idx : Nat) :
    (gfBackSubstitute d idx).pivot_rows = d.pivot_rows ∧
    (gfBackSubstitute d idx).rank = d.rank ∧
    (gfBackSubstitute d idx).generation_size = d.generation_size ∧
    (gfBackSubstitute d idx).chunk_size = d.chunk_size ∧
    (gfBackSubstitute d idx).data.length = d.data.length := by
  simp only [gfBackSubstitute]
  split
  · exact ⟨rfl, rfl, rfl, rfl, rfl⟩
  · exact ⟨rfl, rfl, rfl, rfl, by simp [mapIdxAux_length]⟩

theorem gfBackSubstitute_rowlen (d : GFDecoder) (idx : Nat) (g : Nat)
    (hrows : ∀ row ∈ d.data, row.coding_vector.length = g) :
    ∀ row ∈ (gfBackSubstitute d idx).data, row.coding_vector.length = g := by
  simp only [gfBackSubstitute]
  split
  · exact hrows
  next cv hlead =>
    intro row hrow
    obtain ⟨i, a, ha, hfa⟩ := mapIdxAux_mem _ 0 d.data row hrow
    by_cases hidx : idx < d.data.length
    · have hnewlen : (d.data.getD idx ⟨[], []⟩).coding_vector.length = g :=
        hrows _ (getD_mem_of_lt d.data idx ⟨[], []⟩ hidx)
      rw [hfa]
      split
      · split
        · rw [gfSubtractRow_cv_length, hrows a ha, hnewlen]
          simp
        · exact hrows a ha
      · exact hrows a ha
    · exfalso
      have hdef : d.data.getD idx ⟨[], []⟩ = ⟨[], []⟩ := by
        rw [List.getD_eq_getElem?_getD, List.getElem?_eq_none (by omega)]
        rfl
      rw [hdef] at hlead
      simp [GFPacket.leading_coefficient, gfLeadingAux] at hlead

end RLNC

namespace RLNC

theorem if_pair_snd {α β : Type} (b : Bool) (x y : α) (s : β) :
    (if b = true then (x, s) else (y, s)).2 = s := by
  split <;> rfl

theorem gfDecode_spec (d : GFDecoder) (p : GFPacket) :
    (d.decode p).2 = d ∨
    (∃ col v p1, (gfEliminate d p).leading_coefficient = some (col, v) ∧
      d.pivot_rows.getD col none = none ∧
      p.coding_vector.length = d.generation_size ∧
      p1.coding_vector.length = (gfEliminate d p).coding_vector.length ∧
      (d.decode p).2 = gfBackSubstitute
        ⟨d.chunk_size, d.generation_size, d.data ++ [p1],
         d.pivot_rows.set col (some d.data.length), d.rank + 1⟩
        ((d.data ++ [p1]).length - 1)) := by
  simp only [GFDecoder.decode]
  by_cases hlen : p.coding_vector.length ≠ d.generation_size
  · rw [if_pos hlen]
    exact Or.inl rfl
  · rw [if_neg hlen]
    push_neg at hlen
    cases hld : (gfEliminate d p).leading_coefficient with
    | none =>
      left
      simp only [hld]
      split <;> rfl
    | some cv0 =>
      simp only [hld]
      by_cases hocc : d.pivot_rows.getD cv0.1 none = none
      · right
        rw [if_pos hocc]
        cases hinv : gfInv ((gfEliminate d p).coding_vector.getD cv0.1 0) with
        | some ic =>
          simp only [hinv]
          refine ⟨cv0.1, cv0.2,
            GFPacket.mk ((gfEliminate d p).coding_vector.map (fun c => gfMul c ic))
              ((gfEliminate d p).data.map (fun c => gfMul c ic)),
            rfl, hocc, hlen, List.length_map _ _, ?_⟩
          split <;> rfl
        | none =>
          simp only [hinv]
          refine ⟨cv0.1, cv0.2, gfEliminate d p, rfl, hocc, hlen, rfl, ?_⟩
          split <;> rfl
      · left
        rw [if_neg hocc]
        split <;> rfl

theorem GFInv_preserved (d : GFDecoder) (hInv : GFInv d) (p : GFPacket) :
    GFInv (d.decode p).2 := by
  rcases gfDecode_spec d p with hsame | ⟨col, v, p1, hld, hocc, hplen, hp1len, heq⟩
  · rw [hsame]
    exact hInv
  · have hcol_lt : col < d.generation_size := by
      have hlt := gfLeadingAux_lt (gfEliminate d p).coding_vector 0 col v hld
      rw [gfEliminate_cv_length d hInv.owner_lt hInv.rowlen p hplen] at hlt
      omega
    have hp1g : p1.coding_vector.length = d.generation_size := by
      rw [hp1len, gfEliminate_cv_length d hInv.owner_lt hInv.rowlen p hplen]
    set d2 : GFDecoder :=
      ⟨d.chunk_size, d.generation_size, d.data ++ [p1],
       d.pivot_rows.set col (some d.data.length), d.rank + 1⟩ with hd2
    have hd2g : d2.generation_size = d.generation_size := rfl
    have hd2r : d2.rank = d.rank + 1 := rfl
    have hd2p : d2.pivot_rows = d.pivot_rows.set col (some d.data.length) := rfl
    have hd2d : d2.data = d.data ++ [p1] := rfl
    have hd2len : d2.data.length = d.data.length + 1 := by
      rw [hd2d]
      simp
    obtain ⟨hbp, hbr, hbg, hbc, hbl⟩ :=
      gfBackSubstitute_fields d2 ((d.data ++ [p1]).length - 1)
    rw [heq]
    have hcol256 : col < d.pivot_rows.length := by
      rw [hInv.pivlen]
      have := hInv.genle
      omega
    refine ⟨?_, ?_, ?_, ?_, ?_, ?_⟩
    · rw [hbp, hd2p, List.length_set]
      exact hInv.pivlen
    · rw [hbg, hd2g]
      exact hInv.genle
    · intro i hi
      rw [hbg, hd2g] at hi
      rw [hbp, hd2p, getD_set_ne _ _ _ _ _ (show col ≠ i by omega)]
      exact hInv.inrange i hi
    · rw [hbp, hbr, hd2p, hd2r,
        filter_isSome_set_some d.pivot_rows col d.data.length hcol256 hocc,
        hInv.count_eq]
    · intro i r hir
      rw [hbp, hd2p] at hir
      rw [hbl, hd2len]
      by_cases hic : i = col
      · rw [hic, getD_set_self _ _ _ _ hcol256] at hir
        injection hir with hir
        omega
      · rw [getD_set_ne _ _ _ _ _ (fun hh => hic hh.symm)] at hir
        have := hInv.owner_lt i r hir
        omega
    · intro row hrow
      rw [hbg, hd2g]
      refine gfBackSubstitute_rowlen d2 ((d.data ++ [p1]).length - 1)
        d.generation_size ?_ row hrow
      intro row2 hrow2
      rw [hd2d] at hrow2
      rcases List.mem_append.mp hrow2 with hrow2 | hrow2
      · exact hInv.rowlen row2 hrow2
      · rw [List.mem_singleton.mp hrow2]
        exact hp1g

theorem GFReachable_GFInv (d : GFDecoder) (h : GFReachable d) : GFInv d := by
  induction h with
  | init cs gs d hnew =>
    unfold GFDecoder.new at hnew
    split at hnew
    · exact absurd hnew (by simp)
    · split at hnew
      · exact absurd hnew (by simp)
      · split at hnew
        · exact absurd hnew (by simp)
        next hgs2 =>
          injection hnew with hnew
          rw [← hnew]
          refine ⟨by simp [MAX_GENERATION_SIZE], ?_, ?_, ?_, ?_, ?_⟩
          · simp only []
            unfold MAX_GENERATION_SIZE at hgs2
            omega
          · intro i _
            simp only []
            rw [getD_replicate]
            split <;> rfl
          · simp only []
            rw [List.filter_replicate]
            simp
          · intro i r hir
            simp only [] at hir
            rw [getD_replicate] at hir
            exact absurd hir (by split <;> simp)
          · intro row hrow
            simp at hrow
  | step d p _ ih => exact GFInv_preserved d ih p

end RLNC

namespace RLNC

theorem gf_full_occupied (d : GFDecoder) (hInv : GFInv d)
    (hfull : d.rank = d.generation_size) :
    ∀ col, col < d.generation_size → d.pivot_rows.getD col none ≠ none := by
  intro col hcol
  have hdropnone : ∀ x ∈ d.pivot_rows.drop d.generation_size, x = none := by
    intro x hx
    obtain ⟨j, hj, hgx⟩ := List.mem_iff_getElem.mp hx
    have hjlen : d.generation_size + j < d.pivot_rows.length := by
      rw [List.length_drop] at hj
      omega
    have hgd : d.pivot_rows.getD (d.generation_size + j) none = x := by
      rw [List.getD_eq_getElem?_getD, List.getElem?_eq_getElem hjlen, Option.getD_some]
      rw [← hgx]
      exact (List.getElem_drop ..).symm
    rw [← hgd]
    exact hInv.inrange _ (by omega)
  have hfiltdrop :
      (d.pivot_rows.drop d.generation_size).filter (fun o => o.isSome) = [] := by
    rw [List.filter_eq_nil_iff]
    intro a ha
    rw [hdropnone a ha]
    simp
  have htklen : (d.pivot_rows.take d.generation_size).length = d.generation_size := by
    rw [List.length_take, hInv.pivlen]
    have := hInv.genle
    omega
  have hsplitlen : (d.pivot_rows.filter (fun o => o.isSome)).length =
      ((d.pivot_rows.take d.generation_size).filter (fun o => o.isSome)).length +
      ((d.pivot_rows.drop d.generation_size).filter (fun o => o.isSome)).length := by
    conv_lhs => rw [← List.take_append_drop d.generation_size d.pivot_rows]
    rw [List.filter_append, List.length_append]
  have hcount : ((d.pivot_rows.take d.generation_size).filter
      (fun o => o.isSome)).length = d.generation_size := by
    have h1 := hInv.count_eq
    rw [hsplitlen, hfiltdrop] at h1
    simpa [hfull] using h1
  have hall := (filter_length_eq_iff (fun o => o.isSome)
    (d.pivot_rows.take d.generation_size)).mp (by rw [hcount, htklen])
  have hcl : col < (d.pivot_rows.take d.generation_size).length := by
    rw [htklen]
    exact hcol
  have hgdtake : (d.pivot_rows.take d.generation_size).getD col none =
      d.pivot_rows.getD col none := by
    rw [List.getD_eq_getElem?_getD, List.getD_eq_getElem?_getD,
      List.getElem?_take, if_pos hcol]
  have hmem : d.pivot_rows.getD col none ∈ d.pivot_rows.take d.generation_size := by
    rw [← hgdtake]
    exact getD_mem_of_lt _ _ _ hcl
  have hsome := hall _ hmem
  intro hnone
  rw [hnone] at hsome
  simp at hsome

theorem gfDecodeFinal_ne_ok_none (d : GFDecoder) :
    gfDecodeFinal d ≠ .ok none := by
  simp only [gfDecodeFinal]
  split <;> simp



/-- C10: once the GF(2^8) decoder (`src/decode.rs`) has reached
`rank == generation_size`, every further `decode` call whose packet carries a
coding vector of length `generation_size` leaves the decoder state (rows,
pivot table, rank) unchanged and re-runs `decode_final` on that unchanged
state, and the re-run never yields `Ok(None)`: it re-emits the same
`Some(bytes)` (or the same error) every time. -/
theorem gf256_decode_after_complete (d : GFDecoder) (p : GFPacket)
    (hreach : GFReachable d) (hfull : d.rank = d.generation_size)
    (hlen : p.coding_vector.length = d.generation_size) :
    d.decode p = (gfDecodeFinal d, d) ∧ gfDecodeFinal d ≠ .ok none := by
  have hInv := GFReachable_GFInv d hreach
  refine ⟨?_, gfDecodeFinal_ne_ok_none d⟩
  simp only [GFDecoder.decode]
  rw [if_neg (fun h => h hlen)]
  have hge : d.rank ≥ d.generation_size := le_of_eq hfull.symm
  cases hld : (gfEliminate d p).leading_coefficient with
  | none =>
    simp only [hld]
    rw [if_pos hge]
  | some cv0 =>
    obtain ⟨col, v⟩ := cv0
    have hcol : col < d.generation_size := by
      have hlt := gfLeadingAux_lt (gfEliminate d p).coding_vector 0 col v hld
      rw [gfEliminate_cv_length d hInv.owner_lt hInv.rowlen p hlen] at hlt
      omega
    simp only [hld]
    rw [if_neg (gf_full_occupied d hInv hfull col hcol)]
    rw [if_pos hge]

theorem gf256_decode_after_complete_witness :
    ((GFDecoder.decode ⟨2, 1, [], List.replicate 256 none, 0⟩
        ⟨[1], [65, 129]⟩).2.decode ⟨[1], [65, 129]⟩ =
      (gfDecodeFinal ((GFDecoder.decode ⟨2, 1, [], List.replicate 256 none, 0⟩
          ⟨[1], [65, 129]⟩).2),
       (GFDecoder.decode ⟨2, 1, [], List.replicate 256 none, 0⟩
          ⟨[1], [65, 129]⟩).2)) ∧
    gfDecodeFinal ((GFDecoder.decode ⟨2, 1, [], List.replicate 256 none, 0⟩
        ⟨[1], [65, 129]⟩).2) ≠ .ok none :=
  gf256_decode_after_complete _ _
    (GFReachable.step _ _ (GFReachable.init 2 1 _ (by decide)))
    (by decide) (by decide)

/-! ## Encoder coherence and the payload round-trip -/


variable {F : Type} [Field F] [DecidableEq F] {C S : Nat}

theorem encodeInner_apply (chunks : Fin C → Fin S → F) (cv : Fin C → F) (j : Fin S) :
    encodeInner chunks cv j = ∑ i, cv i * chunks i j := by
  have hfold : ∀ (L : List (Fin C)) (acc : Fin S → F),
      (L.foldl (fun result i =>
        if cv i = 0 then result
        else fun j => result j + chunks i j * cv i) acc) j =
      acc j + (L.map (fun i => cv i * chunks i j)).sum := by
    intro L
    induction L with
    | nil => intro acc; simp
    | cons a L ih =>
      intro acc
      simp only [List.foldl_cons, List.map_cons, List.sum_cons]
      by_cases hz : cv a = 0
      · rw [if_pos hz, ih, hz, zero_mul, zero_add]
      · rw [if_neg hz, ih]
        ring
  simp only [encodeInner]
  rw [hfold, Fin.sum_univ_def]
  simp

theorem LinRel_encode (chunks : Fin C → Fin S → F) (v : Fin C → F) :
    LinRel chunks (encodeWithVector chunks v) := by
  intro j
  exact encodeInner_apply chunks v j

theorem LinRel_CombOffset (chunks : Fin C → Fin S → F) (m : Matrix F C S)
    (hcoh : Coh chunks m) (p q : RLNCPacket F C S)
    (hp : LinRel chunks p) (hoff : CombOffset m p q) : LinRel chunks q := by
  obtain ⟨g, hcv, hdata⟩ := hoff
  intro j
  rw [hdata j, hp j]
  have hterm : ∀ c : Fin C, q.coding_vector c * chunks c j =
      p.coding_vector c * chunks c j -
        ∑ i ∈ Finset.range m.data.length,
          (g i * (m.row i).coding_vector c) * chunks c j := by
    intro c
    rw [hcv c, sub_mul, Finset.sum_mul]
  rw [Finset.sum_congr rfl (fun c _ => hterm c), Finset.sum_sub_distrib]
  congr 1
  rw [Finset.sum_comm]
  refine Finset.sum_congr rfl (fun i hi => ?_)
  rw [hcoh i (Finset.mem_range.mp hi) j, Finset.mul_sum]
  refine Finset.sum_congr rfl (fun c _ => ?_)
  ring

theorem LinRel_normalize (chunks : Fin C → Fin S → F) (p : RLNCPacket F C S)
    (hp : LinRel chunks p) : LinRel chunks p.normalize := by
  unfold RLNCPacket.normalize
  cases hld : p.leading_coefficient with
  | none => exact hp
  | some col =>
    intro j
    simp only []
    rw [hp j, Finset.sum_mul]
    refine Finset.sum_congr rfl (fun c _ => ?_)
    ring

theorem LinRel_sub_pointwise (chunks : Fin C → Fin S → F)
    (a b q : RLNCPacket F C S) (k : F)
    (ha : LinRel chunks a) (hb : LinRel chunks b)
    (hqc : ∀ c, q.coding_vector c = a.coding_vector c - k * b.coding_vector c)
    (hqd : ∀ j, q.data j = a.data j - k * b.data j) : LinRel chunks q := by
  intro j
  rw [hqd j, ha j, hb j, Finset.mul_sum, ← Finset.sum_sub_distrib]
  refine Finset.sum_congr rfl (fun c _ => ?_)
  rw [hqc c]
  ring

theorem Coh_push_rref (chunks : Fin C → Fin S → F) (m : Matrix F C S)
    (hInv : MInv m) (hcoh : Coh chunks m) (pkt : RLNCPacket F C S)
    (hpkt : LinRel chunks pkt) : Coh chunks (m.push_rref pkt).2 := by
  rcases push_rref_spec m pkt with ⟨hm, _, _⟩ | ⟨col, hlead, hocc, heq⟩
  · rw [hm]
    exact hcoh
  · obtain ⟨hdata, hpiv, hrank⟩ := push_rref_insert_result m pkt col hlead hocc
    obtain ⟨hlen, hcv, hdta, hrowN⟩ := insert_rows_spec m col
      (m.eliminate pkt).normalize _ hdata
    have hpe : LinRel chunks (m.eliminate pkt) :=
      LinRel_CombOffset chunks m hcoh pkt _ hpkt (eliminate_CombOffset m hInv pkt)
    have hp1 : LinRel chunks (m.eliminate pkt).normalize :=
      LinRel_normalize chunks _ hpe
    intro r hr
    rw [hlen] at hr
    rcases Nat.lt_or_ge r m.data.length with hlt | hge
    · exact LinRel_sub_pointwise chunks (m.row r) (m.eliminate pkt).normalize _
        ((m.row r).coding_vector col) (hcoh r hlt) hp1 (hcv r hlt) (hdta r hlt)
    · have hreq : r = m.data.length := by omega
      rw [hreq, hrowN]
      exact hp1

theorem EncReach_MInv_Coh (chunks : Fin C → Fin S → F) (m : Matrix F C S)
    (h : EncReach chunks m) : MInv m ∧ Coh chunks m := by
  induction h with
  | init =>
    refine ⟨MInv_new, fun r hr => ?_⟩
    exact absurd hr (by simp [Matrix.new])
  | step m v hm ih =>
    exact ⟨push_rref_MInv m ih.1 _,
      Coh_push_rref chunks m ih.1 ih.2 _ (LinRel_encode chunks v)⟩


/-! ## Full-rank structure of the pivot table -/

theorem full_pivots_total (m : Matrix F C S) (hInv : MInv m) (hrank : m.rank = C) :
    ∀ c : Fin C, ∃ r, m.pivots c = some r := by
  intro c
  have hcard := MInv_occupied_card m hInv
  rw [← hInv.rank_eq, hrank] at hcard
  have hcard2 : (Finset.univ.filter (fun c : Fin C => (m.pivots c).isSome)).card =
      (Finset.univ : Finset (Fin C)).card := by
    rw [hcard, Finset.card_univ, Fintype.card_fin]
  have hsome := Finset.filter_card_eq hcard2 c (Finset.mem_univ c)
  exact ⟨(m.pivots c).get hsome, (Option.some_get hsome).symm⟩

theorem full_row_cv (m : Matrix F C S) (hInv : MInv m) (hrank : m.rank = C)
    (c : Fin C) (r : Nat) (hc : m.pivots c = some r) (c2 : Fin C) :
    (m.row r).coding_vector c2 = if c2 = c then 1 else 0 := by
  by_cases he : c2 = c
  · rw [if_pos he, he]
    exact hInv.pivot_one c r hc
  · rw [if_neg he]
    obtain ⟨r2, hr2⟩ := full_pivots_total m hInv hrank c2
    have hne : r ≠ r2 := by
      intro hrr
      rw [← hrr] at hr2
      exact he (hInv.owner_inj c2 c r hr2 hc)
    exact hInv.reduced c2 r2 hr2 r (hInv.owner_lt c r hc) hne

theorem full_row_data (chunks : Fin C → Fin S → F) (m : Matrix F C S)
    (hInv : MInv m) (hcoh : Coh chunks m) (hrank : m.rank = C)
    (c : Fin C) (r : Nat) (hc : m.pivots c = some r) (j : Fin S) :
    (m.row r).data j = chunks c j := by
  rw [hcoh r (hInv.owner_lt c r hc) j]
  have hterm : ∀ c2 : Fin C, (m.row r).coding_vector c2 * chunks c2 j =
      if c2 = c then chunks c2 j else 0 := by
    intro c2
    rw [full_row_cv m hInv hrank c r hc c2]
    split <;> simp
  rw [Finset.sum_congr rfl (fun c2 _ => hterm c2),
    Finset.sum_ite_eq' Finset.univ c (fun c2 => chunks c2 j)]
  simp

/-! ## Last-writer-wins evaluation of the chunk-collection fold -/

theorem foldl_update_not_mem {κ α β : Type} [DecidableEq κ] (g : β → α) :
    ∀ (L : List (κ × β)) (init : κ → α) (k : κ),
      (∀ x ∈ L, x.1 ≠ k) →
      (L.foldl (fun cs cr => Function.update cs cr.1 (g cr.2)) init) k = init k := by
  intro L
  induction L with
  | nil => intro init k _; rfl
  | cons x L ih =>
    intro init k h
    simp only [List.foldl_cons]
    rw [ih _ k (fun y hy => h y (List.mem_cons_of_mem x hy))]
    exact Function.update_noteq (Ne.symm (h x (List.mem_cons_self x L))) _ _

theorem foldl_update_unique {κ α β : Type} [DecidableEq κ] (g : β → α) :
    ∀ (L : List (κ × β)) (init : κ → α) (k : κ) (r : β),
      (k, r) ∈ L → (∀ x ∈ L, x.1 = k → x.2 = r) →
      (L.foldl (fun cs cr => Function.update cs cr.1 (g cr.2)) init) k = g r := by
  intro L
  induction L with
  | nil => intro init k r hmem _; exact absurd hmem (by simp)
  | cons x L ih =>
    intro init k r hmem huniq
    simp only [List.foldl_cons]
    by_cases hnk : ∀ y ∈ L, y.1 ≠ k
    · have hx1 : x.1 = k := by
        rcases List.mem_cons.mp hmem with hx | hx
        · rw [← hx]
        · exact absurd rfl (hnk (k, r) hx)
      rw [foldl_update_not_mem g L _ k hnk, hx1, Function.update_same,
        huniq x (List.mem_cons_self x L) hx1]
    · push_neg at hnk
      obtain ⟨y, hyL, hy1⟩ := hnk
      have hy2 : y.2 = r := huniq y (List.mem_cons_of_mem x hyL) hy1
      have hyr : (k, r) ∈ L := by
        obtain ⟨ya, yb⟩ := y
        have hy1a : ya = k := hy1
        have hy2a : yb = r := hy2
        rw [← hy1a, ← hy2a]
        exact hyL
      exact ih _ k r hyr (fun z hz => huniq z (List.mem_cons_of_mem x hz))

/-! ## Chunk-group flattening -/

theorem flatMap_congr_mem {α β : Type} (l : List α) (f g2 : α → List β)
    (h : ∀ a ∈ l, f a = g2 a) : l.flatMap f = l.flatMap g2 := by
  induction l with
  | nil => rfl
  | cons a l ih =>
    rw [List.flatMap_cons, List.flatMap_cons, h a (List.mem_cons_self a l),
      ih (fun b hb => h b (List.mem_cons_of_mem a hb))]

theorem finRange_flatMap {β : Type} (n : Nat) (f : Nat → List β) :
    (List.finRange n).flatMap (fun i => f i.val) = (List.range n).flatMap f := by
  rw [← List.map_coe_finRange n, List.flatMap_map]

theorem range_flatMap_chunks (w : Nat) :
    ∀ (n off : Nat) (l : List Nat),
      (List.range n).flatMap (fun j => (l.drop (off + j * w)).take w) =
        (l.drop off).take (n * w) := by
  intro n
  induction n with
  | zero => intro off l; simp
  | succ n ih =>
    intro off l
    rw [List.range_succ, List.flatMap_append, ih off l]
    simp only [List.flatMap_cons, List.flatMap_nil, List.append_nil]
    rw [Nat.succ_mul, List.take_add]
    congr 1
    rw [List.drop_drop]

/-! ## The boundary marker position -/

theorem findIdx_replicate_zero :
    ∀ (z i : Nat), (List.replicate z 0).findIdx?
      (fun b => b == BOUNDARY_MARKER) i = none := by
  intro z
  induction z with
  | zero => intro i; rfl
  | succ z ih =>
    intro i
    rw [List.replicate_succ, List.findIdx?_cons]
    rw [if_neg (by decide)]
    exact ih (i + 1)

theorem rposition_marker (P : List Nat) (z : Nat) :
    rposition (P ++ BOUNDARY_MARKER :: List.replicate z 0) BOUNDARY_MARKER =
      some P.length := by
  unfold rposition
  have hrev : (P ++ BOUNDARY_MARKER :: List.replicate z 0).reverse =
      List.replicate z 0 ++ ([BOUNDARY_MARKER] ++ P.reverse) := by
    rw [List.reverse_append, List.reverse_cons, List.reverse_replicate,
      List.append_assoc]
  have h129 : ([BOUNDARY_MARKER].findIdx? (fun b => b == BOUNDARY_MARKER)) =
      some 0 := by decide
  rw [hrev, List.findIdx?_append, findIdx_replicate_zero, Option.none_or,
    List.findIdx?_append, h129, Option.or_some]
  simp only [Option.map_some', List.length_append, List.length_cons,
    List.length_replicate, Option.some.injEq]
  omega

/-! ## Encoder size arithmetic -/

theorem le_ceilDiv_mul (a b : Nat) (hb : 0 < b) : a ≤ ceilDiv a b * b := by
  unfold ceilDiv
  rw [Nat.mul_comm]
  have hdm := Nat.div_add_mod (a + b - 1) b
  have hmlt := Nat.mod_lt (a + b - 1) hb
  generalize ht : b * ((a + b - 1) / b) = t at hdm ⊢
  omega

theorem payload_le_padded (plen C0 cap : Nat) (hC : 0 < C0) (hcap : 0 < cap) :
    plen + 1 ≤ encChunkSize plen C0 cap * C0 := by
  have h1 : plen + 1 ≤ ceilDiv (plen + 1) C0 * C0 := le_ceilDiv_mul _ _ hC
  have h2 : ceilDiv (plen + 1) C0 ≤ ceilDiv (ceilDiv (plen + 1) C0) cap * cap :=
    le_ceilDiv_mul _ _ hcap
  calc plen + 1 ≤ ceilDiv (plen + 1) C0 * C0 := h1
    _ ≤ ceilDiv (ceilDiv (plen + 1) C0) cap * cap * C0 := Nat.mul_le_mul_right C0 h2
    _ = encChunkSize plen C0 cap * C0 := rfl

theorem encPadded_length (P : List Nat) (C0 cap : Nat) (hC : 0 < C0)
    (hcap : 0 < cap) :
    (encPadded P C0 cap).length = encChunkSize P.length C0 cap * C0 := by
  unfold encPadded
  have := payload_le_padded P.length C0 cap hC hcap
  simp only [List.length_append, List.length_replicate, List.length_cons,
    List.length_nil]
  omega

theorem encSymCount_mul (plen C0 cap : Nat) (hcap : 0 < cap) :
    encSymCount plen C0 cap * cap = encChunkSize plen C0 cap := by
  unfold encSymCount
  conv_lhs => rw [show encChunkSize plen C0 cap =
    ceilDiv (ceilDiv (plen + 1) C0) cap * cap from rfl]
  rw [Nat.mul_div_cancel _ hcap]
  rfl

theorem encPadded_mem_lt (P : List Nat) (C0 cap : Nat)
    (hPb : ∀ b ∈ P, b < 256) : ∀ b ∈ encPadded P C0 cap, b < 256 := by
  intro b hb
  unfold encPadded at hb
  rcases List.mem_append.mp hb with hb | hb
  · rcases List.mem_append.mp hb with hb | hb
    · exact hPb b hb
    · rw [List.mem_singleton.mp hb]
      unfold BOUNDARY_MARKER
      omega
  · rw [List.eq_of_mem_replicate hb]
    omega


/-! ## Full-rank extraction recovers the payload -/

theorem mdecode_full (cap : Nat) (toB : F → List Nat) (fromB : List Nat → F)
    (hcap : 0 < cap)
    (hround : ∀ bs : List Nat, bs.length = cap → (∀ b ∈ bs, b < 256) →
      toB (fromB bs) = bs)
    (P : List Nat) (hPb : ∀ b ∈ P, b < 256) (C0 : Nat) (hC : 0 < C0)
    (m : Matrix F C0 (encSymCount P.length C0 cap))
    (hInv : MInv m) (hcoh : Coh (encChunks fromB P C0 cap) m)
    (hrank : m.rank = C0) :
    m.mdecode toB = .ok P := by
  have hcd : m.can_decode = true := by
    unfold Matrix.can_decode
    exact decide_eq_true (le_of_eq hrank.symm)
  have hcs : encSymCount P.length C0 cap * cap = encChunkSize P.length C0 cap :=
    encSymCount_mul P.length C0 cap hcap
  have hplen : (encPadded P C0 cap).length = encChunkSize P.length C0 cap * C0 :=
    encPadded_length P C0 cap hC hcap
  have hsyms : ∀ (c : Fin C0) (j : Fin (encSymCount P.length C0 cap)),
      (m.pivotList.foldl
        (fun cs cr => Function.update cs cr.1 (m.row cr.2).data)
        (fun _ _ => 0)) c j = encChunks fromB P C0 cap c j := by
    intro c j
    obtain ⟨r, hr⟩ := full_pivots_total m hInv hrank c
    have huniq : ∀ x ∈ m.pivotList, x.1 = c → x.2 = r := by
      intro x hx hx1
      obtain ⟨xa, xb⟩ := x
      have hxa : xa = c := hx1
      rw [hxa] at hx
      have hbx : m.pivots c = some xb := (mem_pivotList_iff m c xb).mp hx
      rw [hr] at hbx
      injection hbx with hbx
      exact hbx.symm
    have hfold : (m.pivotList.foldl
        (fun cs cr => Function.update cs cr.1 (m.row cr.2).data)
        (fun _ _ => 0)) c = (m.row r).data :=
      foldl_update_unique (fun t => (m.row t).data) m.pivotList
        (fun _ _ => 0) c r ((mem_pivotList_iff m c r).mpr hr) huniq
    rw [hfold]
    exact full_row_data (encChunks fromB P C0 cap) m hInv hcoh hrank c r hr j
  have hgrp : ∀ (c : Fin C0) (j : Fin (encSymCount P.length C0 cap)),
      toB (encChunks fromB P C0 cap c j) =
        ((encPadded P C0 cap).drop
          (c.val * encChunkSize P.length C0 cap + j.val * cap)).take cap := by
    intro c j
    have hoff : c.val * encChunkSize P.length C0 cap + j.val * cap + cap ≤
        encChunkSize P.length C0 cap * C0 := by
      have h1 : j.val * cap + cap ≤ encChunkSize P.length C0 cap := by
        calc j.val * cap + cap = (j.val + 1) * cap := by ring
          _ ≤ encSymCount P.length C0 cap * cap := Nat.mul_le_mul_right cap j.isLt
          _ = encChunkSize P.length C0 cap := hcs
      have h2 : c.val * encChunkSize P.length C0 cap +
          encChunkSize P.length C0 cap ≤ encChunkSize P.length C0 cap * C0 := by
        calc c.val * encChunkSize P.length C0 cap + encChunkSize P.length C0 cap
            = (c.val + 1) * encChunkSize P.length C0 cap := by ring
          _ ≤ C0 * encChunkSize P.length C0 cap := Nat.mul_le_mul_right _ c.isLt
          _ = encChunkSize P.length C0 cap * C0 := Nat.mul_comm _ _
      omega
    have hglen : (((encPadded P C0 cap).drop
        (c.val * encChunkSize P.length C0 cap + j.val * cap)).take cap).length =
        cap := by
      rw [List.length_take, List.length_drop, hplen]
      omega
    have hgbnd : ∀ b ∈ ((encPadded P C0 cap).drop
        (c.val * encChunkSize P.length C0 cap + j.val * cap)).take cap,
        b < 256 := by
      intro b hb
      exact encPadded_mem_lt P C0 cap hPb b
        (List.mem_of_mem_drop (List.mem_of_mem_take hb))
    simp only [encChunks]
    exact hround _ hglen hgbnd
  have hinner : ∀ c : Fin C0,
      (List.finRange (encSymCount P.length C0 cap)).flatMap (fun j =>
        ((encPadded P C0 cap).drop
          (c.val * encChunkSize P.length C0 cap + j.val * cap)).take cap) =
      ((encPadded P C0 cap).drop
        (c.val * encChunkSize P.length C0 cap)).take
          (encChunkSize P.length C0 cap) := by
    intro c
    rw [finRange_flatMap (encSymCount P.length C0 cap) (fun jv =>
      ((encPadded P C0 cap).drop
        (c.val * encChunkSize P.length C0 cap + jv * cap)).take cap),
      range_flatMap_chunks cap (encSymCount P.length C0 cap)
        (c.val * encChunkSize P.length C0 cap) (encPadded P C0 cap), hcs]
  have hdec : (List.finRange C0).flatMap (fun c =>
      (List.finRange (encSymCount P.length C0 cap)).flatMap (fun j =>
        toB ((m.pivotList.foldl
          (fun cs cr => Function.update cs cr.1 (m.row cr.2).data)
          (fun _ _ => 0)) c j))) = encPadded P C0 cap := by
    rw [flatMap_congr_mem _ _ _ (fun c _ => flatMap_congr_mem _ _ _
      (fun j _ => by rw [hsyms c j, hgrp c j]))]
    rw [flatMap_congr_mem _ _ _ (fun c _ => hinner c)]
    rw [finRange_flatMap C0 (fun iv =>
      ((encPadded P C0 cap).drop (iv * encChunkSize P.length C0 cap)).take
        (encChunkSize P.length C0 cap))]
    rw [flatMap_congr_mem _ _ _ (fun i _ => by rw [← Nat.zero_add
      (i * encChunkSize P.length C0 cap)])]
    rw [range_flatMap_chunks (encChunkSize P.length C0 cap) C0 0
      (encPadded P C0 cap), List.drop_zero]
    rw [show C0 * encChunkSize P.length C0 cap = (encPadded P C0 cap).length by
      rw [hplen]; exact Nat.mul_comm _ _]
    exact List.take_length _
  have hsplit : encPadded P C0 cap = P ++ BOUNDARY_MARKER ::
      List.replicate (encChunkSize P.length C0 cap * C0 - (P.length + 1)) 0 := by
    unfold encPadded
    rw [List.append_assoc]
    rfl
  simp only [Matrix.mdecode]
  rw [if_neg (not_not_intro hcd), hdec, hsplit, rposition_marker]
  show Except.ok ((P ++ BOUNDARY_MARKER ::
    List.replicate (encChunkSize P.length C0 cap * C0 - (P.length + 1)) 0).take
      P.length) = Except.ok P
  rw [List.take_left]


theorem toB257_roundtrip : ∀ bs : List Nat, bs.length = 1 →
    (∀ b ∈ bs, b < 256) → toB257 (fromB257 bs) = bs := by
  intro bs hlen hb
  cases bs with
  | nil => exact absurd hlen (by simp)
  | cons b t =>
    cases t with
    | cons b2 t2 => exact absurd hlen (by simp)
    | nil =>
      have hb1 : b < 256 := hb b (by simp)
      show [F257.val (Fin.ofNat' 257 ([b].headD 0))] = [b]
      have hv : F257.val (Fin.ofNat' 257 b) = b % 257 := rfl
      show [F257.val (Fin.ofNat' 257 b)] = [b]
      rw [hv, Nat.mod_eq_of_lt (by omega)]

/-- C1: for every non-empty byte payload and every chunk count `C0 >= 1`,
feeding any sequence of coded packets produced by `encode_with_vector` over
the payload chunks to a fresh matching decoder, the `decode` call on which
the rank reaches `C0` returns `Some(bytes)` with the payload as a prefix
(here: exactly the payload, the marker and padding having been cut).  The
byte packing `fromB`/`toB` models the scalar codec of the backend field and
is assumed to round-trip on `cap`-byte groups. -/
theorem payload_roundtrip (cap : Nat) (toB : F → List Nat) (fromB : List Nat → F)
    (hcap : 0 < cap)
    (hround : ∀ bs : List Nat, bs.length = cap → (∀ b ∈ bs, b < 256) →
      toB (fromB bs) = bs)
    (P : List Nat) (hP : P ≠ []) (hPb : ∀ b ∈ P, b < 256)
    (C0 : Nat) (hC : 0 < C0)
    (m : Matrix F C0 (encSymCount P.length C0 cap))
    (hreach : EncReach (encChunks fromB P C0 cap) m)
    (v : Fin C0 → F)
    (hflag : (m.push_rref (encodeWithVector (encChunks fromB P C0 cap) v)).1 =
      true) :
    (decoderDecode toB m (encodeWithVector (encChunks fromB P C0 cap) v)).2.rank
        = C0 ∧
    ∃ bytes,
      (decoderDecode toB m (encodeWithVector (encChunks fromB P C0 cap) v)).1 =
        .ok (some bytes) ∧ List.take P.length bytes = P := by
  obtain ⟨hInv, hcoh⟩ := EncReach_MInv_Coh (encChunks fromB P C0 cap) m hreach
  have hInv2 : MInv (m.push_rref (encodeWithVector (encChunks fromB P C0 cap) v)).2 :=
    push_rref_MInv m hInv _
  have hcoh2 : Coh (encChunks fromB P C0 cap)
      (m.push_rref (encodeWithVector (encChunks fromB P C0 cap) v)).2 :=
    Coh_push_rref (encChunks fromB P C0 cap) m hInv hcoh _
      (LinRel_encode (encChunks fromB P C0 cap) v)
  have hcd : (m.push_rref (encodeWithVector (encChunks fromB P C0 cap) v)).2.can_decode
      = true := by
    rcases push_rref_spec m (encodeWithVector (encChunks fromB P C0 cap) v) with
      ⟨_, hf, _⟩ | ⟨col, _, _, heq⟩
    · rw [hf] at hflag
      exact absurd hflag (by simp)
    · rw [heq] at hflag ⊢
      exact hflag
  have hrank2 : (m.push_rref (encodeWithVector (encChunks fromB P C0 cap) v)).2.rank
      = C0 := by
    have hle := MInv_rank_le _ hInv2
    have hge : C0 ≤
        (m.push_rref (encodeWithVector (encChunks fromB P C0 cap) v)).2.rank := by
      unfold Matrix.can_decode at hcd
      exact of_decide_eq_true hcd
    omega
  have hmd : (m.push_rref (encodeWithVector (encChunks fromB P C0 cap) v)).2.mdecode
      toB = .ok P :=
    mdecode_full cap toB fromB hcap hround P hPb C0 hC _ hInv2 hcoh2 hrank2
  refine ⟨?_, P, ?_, List.take_length P⟩
  · rw [decoderDecode_state]
    exact hrank2
  · simp only [decoderDecode]
    rw [if_pos hflag, hmd]


theorem payload_roundtrip_witness :
    (decoderDecode toB257
        (Matrix.new : Matrix F257 1 (encSymCount (List.length ([65] : List Nat)) 1 1))
        (encodeWithVector (encChunks fromB257 [65] 1 1) (fun _ => 1))).2.rank = 1 ∧
    ∃ bytes,
      (decoderDecode toB257
          (Matrix.new : Matrix F257 1 (encSymCount (List.length ([65] : List Nat)) 1 1))
          (encodeWithVector (encChunks fromB257 [65] 1 1) (fun _ => 1))).1 =
        .ok (some bytes) ∧
      List.take (List.length ([65] : List Nat)) bytes = [65] :=
  payload_roundtrip 1 toB257 fromB257 (by decide) toB257_roundtrip [65]
    (by decide) (by decide) 1 (by decide) Matrix.new EncReach.init (fun _ => 1)
    (by decide)

end RLNC
